import Mathlib

set_option maxHeartbeats 1000000
set_option maxRecDepth 4000

/-!
Verification of the natural-language-to-SQL pipeline of the `connery-io/mysql`
plugin action `chatWithYourMysqlDb` (file `src/actions/chatWithYourMysqlDb.ts`).

The core under study is:

* `sanitizeSqlQuery` (the Query Guardrail): a chain of seven JavaScript
  `String.replace` / `trim` steps, embedded here as functions on `List Char`
  that reproduce the ECMAScript regex semantics of each step
  (case-insensitive literal removal, multiline anchors, greedy `\s*`,
  negative lookahead, `[^;]$`, `String.prototype.trim`);
* `generateSqlQuery` (the Query Synthesizer): the completion request it builds
  (model, system instruction with optional schema interpolation, user message,
  temperature) and its no-content failure;
* `handler`: the order of external effects (database connection, query,
  disconnection) around the two stages, embedded as an explicit event trace.

JavaScript strings are embedded as Lean `String`/`List Char`; the character
classes below are the exact ECMAScript `LineTerminator` and `WhiteSpace ∪
LineTerminator` (= `\s`, = the set trimmed by `trim()`) sets.
-/

/-- The backtick character U+0060 (the code-fence marker). -/
def btk : Char := Char.ofNat 96

/-- ECMAScript `LineTerminator`: LF, CR, LS (U+2028), PS (U+2029).
These are the characters at which the multiline anchors `^`/`$` of the
JavaScript regexes `--.*$` and `^\s*[\r\n]` (both with flags `gm`) break lines, and the
characters that `.` does not match. -/
def isLineTerm (c : Char) : Bool :=
  c.toNat = 10 || c.toNat = 13 || c.toNat = 0x2028 || c.toNat = 0x2029

/-- ECMAScript `\s` (= `WhiteSpace ∪ LineTerminator`, the same set removed by
`String.prototype.trim`): TAB, VT, FF, SP, NBSP, the Unicode `Zs` spaces,
ZWNBSP, and the line terminators. -/
def jsWs (c : Char) : Bool :=
  isLineTerm c || c.toNat = 9 || c.toNat = 11 || c.toNat = 12 || c.toNat = 32 ||
  c.toNat = 0xa0 || c.toNat = 0x1680 || (0x2000 ≤ c.toNat && c.toNat ≤ 0x200a) ||
  c.toNat = 0x202f || c.toNat = 0x205f || c.toNat = 0x3000 || c.toNat = 0xfeff

/-- Step 1 of `sanitizeSqlQuery`: `.replace(/```sql/gi, '')`.
Left-to-right, non-overlapping removal of every occurrence of three backticks
followed by `sql` in any letter case (ECMAScript non-Unicode canonicalisation
of `s`, `q`, `l` matches exactly the two ASCII cases of each letter). -/
def stripSqlFence : List Char → List Char
  | a :: b :: c :: d :: e :: f :: rest =>
    if a = btk && b = btk && c = btk &&
       (d = 's' || d = 'S') && (e = 'q' || e = 'Q') && (f = 'l' || f = 'L') then
      stripSqlFence rest
    else
      a :: stripSqlFence (b :: c :: d :: e :: f :: rest)
  | s => s

/-- Step 2 of `sanitizeSqlQuery`: `.replace(/```/g, '')`.
Left-to-right non-overlapping removal of every occurrence of three backticks. -/
def stripFence : List Char → List Char
  | a :: b :: c :: rest =>
    if a = btk && b = btk && c = btk then stripFence rest
    else a :: stripFence (b :: c :: rest)
  | s => s

/-- Step 3 of `sanitizeSqlQuery`: `.replace` of the regex `--.*$` with flags
`gm` by the empty string.
On every line, everything from the first `--` up to (excluding) the line
terminator is removed; `.` does not match line terminators and the multiline
`$` matches before every line terminator and at the end of the string.
The `Bool` is the scanner mode: `false` = copying, `true` = inside a removed
comment (skipping until the end of the line). -/
def stripCommentsAux : Bool → List Char → List Char
  | _, [] => []
  | true, c :: cs =>
    if isLineTerm c then c :: stripCommentsAux false cs else stripCommentsAux true cs
  | false, c :: d :: cs =>
    if c = '-' && d = '-' then stripCommentsAux true cs
    else c :: stripCommentsAux false (d :: cs)
  | false, [c] => [c]

/-- Step 3 of `sanitizeSqlQuery` (entry point, scanner starts in copy mode). -/
def stripComments (s : List Char) : List Char := stripCommentsAux false s

/-- The two characters of the character class in the blank-line regex of the
source: the class matches exactly CR (U+000D) and LF (U+000A), and in
particular does not match the line terminators U+2028/U+2029 (which `jsWs`,
the multiline anchors and `isLineTerm` do include). -/
def isCrLf (c : Char) : Bool :=
  c.toNat = 10 || c.toNat = 13

/-- Position one past the last CR or LF of a list, or `0` if the list contains
neither.  Used to compute the length matched by the greedy `\s*` followed by
the CR/LF class at a line start: the greedy `\s*` backtracks until the final
class character sits on the last CR/LF of the maximal whitespace run (a
U+2028/U+2029 later in the run is whitespace but does not match the class). -/
def lastCrLfLen : List Char → Nat
  | [] => 0
  | c :: cs =>
    let r := lastCrLfLen cs
    if r = 0 then (if isCrLf c then 1 else 0) else r + 1

/-- Length of the match of the blank-line pattern at the start of `s`
(`0` = no match). -/
def reMatchBlank (s : List Char) : Nat := lastCrLfLen (s.takeWhile jsWs)

/-- Step 4 of `sanitizeSqlQuery` (order as in the source: the blank-line
removal `.replace(/^\s*[\r\n]/gm, '')`).  The scanner walks the string left to
right; `atStart` records whether the current position is a line start (the
only positions where the multiline `^` lets the regex match).  At a line start
with a match, the matched text is dropped and scanning resumes right after it
(which is again a line start, since every match ends with a CR or LF);
otherwise one character is copied. -/
def stripBlankAux : Bool → List Char → List Char
  | _, [] => []
  | atStart, c :: cs =>
    if atStart && reMatchBlank (c :: cs) != 0 then
      stripBlankAux true ((c :: cs).drop (reMatchBlank (c :: cs)))
    else
      c :: stripBlankAux (isLineTerm c) cs
termination_by _ s => s.length
decreasing_by
  · rename_i hcond
    simp only [Bool.and_eq_true, bne_iff_ne, ne_eq] at hcond
    simp only [List.length_drop, List.length_cons]
    omega
  · simp

/-- Content of the current line: the characters before the first terminator. -/
def lineHead (s : List Char) : List Char := s.takeWhile (fun c => !(isLineTerm c))

/-- The rest of the string from the first line terminator on. -/
def lineRest (s : List Char) : List Char := s.dropWhile (fun c => !(isLineTerm c))

/-- Single-pass (structurally recursive, hence kernel-computable) form of the
blank-line removal.  In line-start mode (second argument `true`) the
whitespace run seen since the current line start is held back in `pend`
(reversed): when a CR or LF arrives while only whitespace has been seen, the
regex has a match from that line start through this CR/LF, so `pend` and the
CR/LF are discarded; a non-whitespace character instead flushes `pend` and
switches to plain copying, and any line terminator while copying re-enters
line-start mode.  An all-whitespace line whose terminator is U+2028 or U+2029
is not removed by itself, because the final class of the pattern matches only
CR and LF; it is swallowed only when a CR/LF follows in the same whitespace
run.  Proved equal to the scanner `stripBlankAux true` below. -/
def sbAux : List Char → Bool → List Char → List Char
  | pend, _, [] => pend.reverse
  | pend, true, c :: cs =>
    if isCrLf c then sbAux [] true cs
    else if jsWs c then sbAux (c :: pend) true cs
    else pend.reverse ++ c :: sbAux [] false cs
  | _, false, c :: cs =>
    if isLineTerm c then c :: sbAux [] true cs
    else c :: sbAux [] false cs

/-- Kernel-computable blank-line removal (see `sbAux`). -/
def stripBlankFast (s : List Char) : List Char := sbAux [] true s

/-- The test of step 5 of `sanitizeSqlQuery`, the lookahead of
`.replace(/^(?!SELECT\s)/i, 'SELECT ')`: does the string begin with `SELECT`
(each letter in either ASCII case, exactly the non-Unicode ECMAScript
case-insensitive match) immediately followed by a `\s` character? -/
def startsSelectWs : List Char → Bool
  | c1 :: c2 :: c3 :: c4 :: c5 :: c6 :: c7 :: _ =>
    (c1 = 'S' || c1 = 's') && (c2 = 'E' || c2 = 'e') && (c3 = 'L' || c3 = 'l') &&
    (c4 = 'E' || c4 = 'e') && (c5 = 'C' || c5 = 'c') && (c6 = 'T' || c6 = 't') &&
    jsWs c7
  | _ => false

/-- Does the text begin with `SELECT`, each letter in either ASCII case (the
non-Unicode ECMAScript case-insensitive sense)? -/
def beginsSelectCI : List Char → Bool
  | c1 :: c2 :: c3 :: c4 :: c5 :: c6 :: _ =>
    (c1 = 'S' || c1 = 's') && (c2 = 'E' || c2 = 'e') && (c3 = 'L' || c3 = 'l') &&
    (c4 = 'E' || c4 = 'e') && (c5 = 'C' || c5 = 'c') && (c6 = 'T' || c6 = 't')
  | _ => false

/-- Step 5 of `sanitizeSqlQuery`: `.replace(/^(?!SELECT\s)/i, 'SELECT ')`.
Without the `m` flag `^` only matches at position 0, so either the negative
lookahead fails (the string does begin with `SELECT` + whitespace) and nothing
happens, or the empty match at position 0 is replaced, i.e. `SELECT ` is
prepended. -/
def prependSelect (s : List Char) : List Char :=
  if startsSelectWs s then s else "SELECT ".data ++ s

/-- Step 6 of `sanitizeSqlQuery`: `.replace(/;[\s\S]*$/, ';')`.
`[\s\S]` matches every character, so the (single, non-global) match runs from
the first `;` to the end of the string and is replaced by `;`; without a `;`
nothing matches. -/
def truncAtSemi : List Char → List Char
  | [] => []
  | c :: cs => if c = ';' then [';'] else c :: truncAtSemi cs

/-- Step 7 of `sanitizeSqlQuery`: `.replace(/[^;]$/, fun m => m + ';')`.
The pattern matches the last character when it exists and is not `;`; the
replacement appends `;` after it.  The empty string has no match. -/
def ensureSemi (s : List Char) : List Char :=
  match s.getLast? with
  | none => s
  | some c => if c = ';' then s else s ++ [';']

/-- Step 8 of `sanitizeSqlQuery`: `.trim()` — removes the characters of
`WhiteSpace ∪ LineTerminator` (= `jsWs`) from both ends. -/
def jsTrim (s : List Char) : List Char :=
  ((s.dropWhile jsWs).reverse.dropWhile jsWs).reverse

/-- The Guardrail `sanitizeSqlQuery` on character lists: the eight steps of
the source, in source order. -/
def sanitizeList (s : List Char) : List Char :=
  jsTrim (ensureSemi (truncAtSemi (prependSelect (stripBlankAux true
    (stripComments (stripFence (stripSqlFence s)))))))

/-- The Guardrail `sanitizeSqlQuery` of the source, on strings. -/
def sanitizeSqlQuery (query : String) : String :=
  String.mk (sanitizeList query.data)

/-- `sanitizeList` with the blank-line step in its kernel-computable form;
proved equal to `sanitizeList` below and used to evaluate concrete inputs. -/
def sanitizeListFast (s : List Char) : List Char :=
  jsTrim (ensureSemi (truncAtSemi (prependSelect (stripBlankFast
    (stripComments (stripFence (stripSqlFence s)))))))

/-! ### The Query Synthesizer (`generateSqlQuery`) and the handler -/

/-- One chat message of the completion request. -/
structure ChatMessage where
  role : String
  content : String
deriving DecidableEq

/-- The completion request `generateSqlQuery` passes to
`ai.chat.completions.create` (the fields the source sets). -/
structure CompletionRequest where
  model : String
  messages : List ChatMessage
  temperature : Nat
deriving DecidableEq

/-- The system instruction template of `generateSqlQuery`, exactly as in the
source (a template literal; the only interpolation is the schema text, and it
is interpolated only when `schemaInfo` differs from the sentinel `"[]"`).
Note that the row cap is *not* interpolated anywhere. -/
def systemContent (schemaInfo : String) : String :=
  "You are a MySQL expert. Generate secure, read-only SQL queries based on natural language questions.\n        " ++
  (if schemaInfo ≠ "[]" then "Schema information: " ++ schemaInfo else "") ++
  "\n        \n        Important: \n        - Return ONLY the raw SQL query without any formatting, markdown, or code blocks\n        - NEVER assume column names exist\n        - When no schema is provided or when asked for \"all fields\", use \"SELECT *\"\n        - Do not invent or guess column names based on table names\n        \n        Rules:\n        - Generate only SELECT queries (no INSERT, UPDATE, DELETE, etc.)\n        - For random selection, use \"ORDER BY RAND()\"\n        - Include relevant JOINs only if table relationships are explicitly provided\n        - Add inline comments with -- to explain the query\n        - Limit results using LIMIT clause"

/-- The completion request constructed by `generateSqlQuery(apiKey, schemaInfo,
question, maxRows)`: model `gpt-4`, the system instruction, the question as
the user message, temperature 0.  `maxRows` is a parameter of the source
function but is used nowhere in the request it builds. -/
def generateSqlRequest (schemaInfo question : String) (maxRows : Nat) : CompletionRequest :=
  { model := "gpt-4"
    messages := [{ role := "system", content := systemContent schemaInfo },
                 { role := "user", content := question }]
    temperature := 0 }

/-- `const schemaInfo = input.schema || '[]'` of the handler: an absent or
empty (falsy) schema field becomes the sentinel `"[]"`. -/
def schemaInfoOf : Option String → String
  | none => "[]"
  | some s => if s = "" then "[]" else s

/-- The completion request as a function of the handler inputs. -/
def handlerRequest (schema : Option String) (question : String) (maxRows : Nat) :
    CompletionRequest :=
  generateSqlRequest (schemaInfoOf schema) question maxRows

/-- `String.prototype.trim` on strings. -/
def jsTrimStr (s : String) : String := String.mk (jsTrim s.data)

/-- The text part of `generateSqlQuery`: the model response content
(`completion.choices[0]?.message?.content`, `none` = absent) is trimmed; an
absent or empty result is the generation failure the source throws. -/
def genSqlText (llmContent : Option String) : Except String String :=
  match llmContent with
  | none => Except.error "Failed to generate SQL query: No response from OpenAI"
  | some c =>
    let t := jsTrimStr c
    if t = "" then Except.error "Failed to generate SQL query: No response from OpenAI"
    else Except.ok t

/-- Database-side effects of the handler, in order of occurrence:
`mysql.createConnection` (connect), `connection.query` with the executed SQL
text, `connection.end` (disconnect, in the `finally`). -/
inductive DbEvent where
  | connect : DbEvent
  | query : String → DbEvent
  | disconnect : DbEvent
deriving DecidableEq

/-- The wrapper the handler puts around a database error message. -/
def queryFailMsg (dbError : String) : String :=
  "Query failed. Please ensure your question uses existing table and column names. If possible, provide the database schema in the \x27schema\x27 parameter. Error: " ++ dbError

/-- `formatResponse` of the source, with the rows already serialized:
optional instructions are prepended as a directive. -/
def formatResponse (rowsJson : String) (instructions : Option String) : String :=
  match instructions with
  | some ins =>
    if ins ≠ "" then "Instructions for the following content: " ++ ins ++ "\n\n" ++ rowsJson
    else rowsJson
  | none => rowsJson

/-- The handler as a trace of database events plus a result.  The source opens
the connection first, then calls the model; a generation failure is thrown out
of the `try`, so only `connection.end()` (the `finally`) runs after it.  On a
generated query the sanitized text is executed; a database error is wrapped by
`queryFailMsg`.  `llmContent` and `dbOutcome` are the responses of the two
external collaborators. -/
def handlerRun (llmContent : Option String) (dbOutcome : Except String String)
    (instructions : Option String) : List DbEvent × Except String String :=
  match genSqlText llmContent with
  | Except.error e => ([DbEvent.connect, DbEvent.disconnect], Except.error e)
  | Except.ok raw =>
    let q := sanitizeSqlQuery raw
    match dbOutcome with
    | Except.ok rows =>
      ([DbEvent.connect, DbEvent.query q, DbEvent.disconnect],
       Except.ok (formatResponse rows instructions))
    | Except.error msg =>
      ([DbEvent.connect, DbEvent.query q, DbEvent.disconnect],
       Except.error (queryFailMsg msg))

/-- The fenced candidate of the spec's fence-stripping example:
three backticks, `sql`, a newline, `SELECT 1`, a newline, three backticks. -/
def fenceInput : String :=
  String.mk ([btk, btk, btk, 's', 'q', 'l', '\n'] ++ "SELECT 1".data ++ ['\n', btk, btk, btk])

/-! ### Repeated-character occurrence

`rep2 c s` (resp. `rep3 c s`) states that `s` contains two (resp. three)
consecutive occurrences of `c`.  `rep2 '-'` detects a `--` comment marker and
`rep3 btk` detects a code fence, since both patterns are runs of one character. -/

/-- `s` contains two consecutive occurrences of `c`. -/
def rep2 (c : Char) : List Char → Bool
  | a :: b :: r => (a = c && b = c) || rep2 c (b :: r)
  | _ => false

/-- `s` contains three consecutive occurrences of `c`. -/
def rep3 (c : Char) : List Char → Bool
  | a :: b :: d :: r => (a = c && b = c && d = c) || rep3 c (b :: d :: r)
  | _ => false

/-! ### Character-class facts -/

theorem jsWs_of_isLineTerm {c : Char} (h : isLineTerm c = true) : jsWs c = true := by
  simp [jsWs, h]

theorem isLineTerm_btk : isLineTerm btk = false := by decide

theorem isLineTerm_dash : isLineTerm '-' = false := by decide

theorem isLineTerm_semi : isLineTerm ';' = false := by decide

theorem jsWs_semi : jsWs ';' = false := by decide

theorem rep2_cons_of {c x : Char} {M : List Char} (h : rep2 c M = true) :
    rep2 c (x :: M) = true := by
  cases M with
  | nil => simp [rep2] at h
  | cons b r => simp [rep2, h]

theorem rep2_cons_elim {c x : Char} {M : List Char} (h : rep2 c (x :: M) = true) :
    (x = c ∧ ∃ r, M = c :: r) ∨ rep2 c M = true := by
  cases M with
  | nil => simp [rep2] at h
  | cons b r =>
    simp only [rep2, Bool.or_eq_true, Bool.and_eq_true, decide_eq_true_eq] at h
    rcases h with ⟨hx, hb⟩ | h
    · exact Or.inl ⟨hx, r, by rw [hb]⟩
    · exact Or.inr h

theorem rep2_head {c : Char} (r : List Char) : rep2 c (c :: c :: r) = true := by
  simp [rep2]

theorem rep2_append_left {c : Char} {X : List Char} (Z : List Char)
    (h : rep2 c X = true) : rep2 c (X ++ Z) = true := by
  induction X with
  | nil => simp [rep2] at h
  | cons x X' ih =>
    rcases rep2_cons_elim h with ⟨hx, r, hr⟩ | h'
    · subst hx; subst hr; exact rep2_head _
    · exact rep2_cons_of (ih h')

theorem rep2_append_right {c : Char} (X : List Char) {Z : List Char}
    (h : rep2 c Z = true) : rep2 c (X ++ Z) = true := by
  induction X with
  | nil => simpa using h
  | cons x X' ih => exact rep2_cons_of ih

theorem rep2_append_sep {c t : Char} {X Y : List Char} (ht : ¬ t = c)
    (h : rep2 c (X ++ t :: Y) = true) : rep2 c X = true ∨ rep2 c Y = true := by
  induction X with
  | nil =>
    refine Or.inr ?_
    rcases rep2_cons_elim (by simpa using h) with ⟨hx, _⟩ | h'
    · exact absurd hx ht
    · exact h'
  | cons x X' ih =>
    rcases rep2_cons_elim (by simpa using h) with ⟨hx, r, hr⟩ | h'
    · cases X' with
      | nil => simp only [List.nil_append, List.cons.injEq] at hr; exact absurd hr.1 ht
      | cons a X'' =>
        simp only [List.cons_append, List.cons.injEq] at hr
        subst hx
        rw [hr.1]
        exact Or.inl (rep2_head _)
    · rcases ih h' with h1 | h2
      · exact Or.inl (rep2_cons_of h1)
      · exact Or.inr h2

theorem rep2_drop {c : Char} {s : List Char} (n : Nat)
    (h : rep2 c (s.drop n) = true) : rep2 c s = true := by
  induction n generalizing s with
  | zero => simpa using h
  | succ n ih =>
    cases s with
    | nil => simpa using h
    | cons x s' => exact rep2_cons_of (ih (by simpa using h))

theorem rep3_cons_of {c x : Char} {M : List Char} (h : rep3 c M = true) :
    rep3 c (x :: M) = true := by
  cases M with
  | nil => simp [rep3] at h
  | cons b r =>
    cases r with
    | nil => simp [rep3] at h
    | cons d r' => simp [rep3, h]

theorem rep3_cons_elim {c x : Char} {M : List Char} (h : rep3 c (x :: M) = true) :
    (x = c ∧ ∃ r, M = c :: c :: r) ∨ rep3 c M = true := by
  cases M with
  | nil => simp [rep3] at h
  | cons b r =>
    cases r with
    | nil => simp [rep3] at h
    | cons d r' =>
      simp only [rep3, Bool.or_eq_true, Bool.and_eq_true, decide_eq_true_eq] at h
      rcases h with ⟨⟨hx, hb⟩, hd⟩ | h
      · exact Or.inl ⟨hx, r', by rw [hb, hd]⟩
      · exact Or.inr h

theorem rep3_head {c : Char} (r : List Char) : rep3 c (c :: c :: c :: r) = true := by
  simp [rep3]

theorem rep3_append_left {c : Char} {X : List Char} (Z : List Char)
    (h : rep3 c X = true) : rep3 c (X ++ Z) = true := by
  induction X with
  | nil => simp [rep3] at h
  | cons x X' ih =>
    rcases rep3_cons_elim h with ⟨hx, r, hr⟩ | h'
    · subst hx; subst hr; exact rep3_head _
    · exact rep3_cons_of (ih h')

theorem rep3_append_right {c : Char} (X : List Char) {Z : List Char}
    (h : rep3 c Z = true) : rep3 c (X ++ Z) = true := by
  induction X with
  | nil => simpa using h
  | cons x X' ih => exact rep3_cons_of ih

theorem rep3_append_sep {c t : Char} {X Y : List Char} (ht : ¬ t = c)
    (h : rep3 c (X ++ t :: Y) = true) : rep3 c X = true ∨ rep3 c Y = true := by
  induction X with
  | nil =>
    refine Or.inr ?_
    rcases rep3_cons_elim (by simpa using h) with ⟨hx, _⟩ | h'
    · exact absurd hx ht
    · exact h'
  | cons x X' ih =>
    rcases rep3_cons_elim (by simpa using h) with ⟨hx, r, hr⟩ | h'
    · cases X' with
      | nil => simp only [List.nil_append, List.cons.injEq] at hr; exact absurd hr.1 ht
      | cons a X'' =>
        cases X'' with
        | nil =>
          simp only [List.cons_append, List.nil_append, List.cons.injEq] at hr
          exact absurd hr.2.1 ht
        | cons b X3 =>
          simp only [List.cons_append, List.cons.injEq] at hr
          subst hx
          rw [hr.1, hr.2.1]
          exact Or.inl (rep3_head _)
    · rcases ih h' with h1 | h2
      · exact Or.inl (rep3_cons_of h1)
      · exact Or.inr h2

theorem rep3_drop {c : Char} {s : List Char} (n : Nat)
    (h : rep3 c (s.drop n) = true) : rep3 c s = true := by
  induction n generalizing s with
  | zero => simpa using h
  | succ n ih =>
    cases s with
    | nil => simpa using h
    | cons x s' => exact rep3_cons_of (ih (by simpa using h))

/-! ### Facts about the fence-stripping steps -/

theorem stripFence_cons3_pos {a b c : Char} {rest : List Char}
    (h : (decide (a = btk) && decide (b = btk) && decide (c = btk)) = true) :
    stripFence (a :: b :: c :: rest) = stripFence rest := by
  simp only [stripFence, h, if_true]

theorem stripFence_cons3_neg {a b c : Char} {rest : List Char}
    (h : ¬ (decide (a = btk) && decide (b = btk) && decide (c = btk)) = true) :
    stripFence (a :: b :: c :: rest) = a :: stripFence (b :: c :: rest) := by
  simp [stripFence, h]

theorem stripFence_short {s : List Char}
    (h : ∀ (a b c : Char) (rest : List Char), s = a :: b :: c :: rest → False) :
    stripFence s = s := by
  match s with
  | [] => rfl
  | [a] => rfl
  | [a, b] => rfl
  | a :: b :: c :: rest => exact (h a b c rest rfl).elim

theorem stripFence_lead :
    ∀ (s : List Char), ∀ r, stripFence s = btk :: r → ∃ s', s = btk :: s' := by
  intro s
  induction s using stripFence.induct with
  | case1 a b c rest h ih =>
    intro r _
    simp only [Bool.and_eq_true, decide_eq_true_eq] at h
    exact ⟨b :: c :: rest, by rw [h.1.1]⟩
  | case2 a b c rest h ih =>
    intro r hr
    rw [stripFence_cons3_neg h, List.cons.injEq] at hr
    exact ⟨b :: c :: rest, by rw [hr.1]⟩
  | case3 s hshort =>
    intro r hr
    rw [stripFence_short hshort] at hr
    exact ⟨r, hr⟩

theorem stripFence_not_rep3 : ∀ s : List Char, rep3 btk (stripFence s) = false := by
  intro s
  induction s using stripFence.induct with
  | case1 a b c rest h ih => rw [stripFence_cons3_pos h]; exact ih
  | case2 a b c rest h ih =>
    rw [stripFence_cons3_neg h]
    cases hx : rep3 btk (a :: stripFence (b :: c :: rest)) with
    | false => rfl
    | true =>
      exfalso
      rcases rep3_cons_elim hx with ⟨ha, r, hr⟩ | h2
      · obtain ⟨s', hs'⟩ := stripFence_lead (b :: c :: rest) _ (by rw [hr])
        have hb : b = btk := by injection hs'
        have hc : ¬ c = btk := by
          simp only [Bool.and_eq_true, decide_eq_true_eq] at h
          intro hcc
          exact h ⟨⟨ha, hb⟩, hcc⟩
        subst hb
        cases rest with
        | nil =>
          rw [stripFence_short (by intro x y z w hw; cases hw)] at hr
          simp only [List.cons.injEq] at hr
          exact hc hr.2.1
        | cons r0 rest' =>
          have hcond2 : ¬ (decide (btk = btk) && decide (c = btk) && decide (r0 = btk)) = true := by
            simp only [Bool.and_eq_true, decide_eq_true_eq]
            intro hcc
            exact hc hcc.1.2
          rw [stripFence_cons3_neg hcond2, List.cons.injEq] at hr
          obtain ⟨s'', hs''⟩ := stripFence_lead (c :: r0 :: rest') _ hr.2
          have : c = btk := by injection hs''
          exact hc this
      · rw [ih] at h2
        exact Bool.false_ne_true h2
  | case3 s hshort =>
    rw [stripFence_short hshort]
    cases s with
    | nil => rfl
    | cons a s' =>
      cases s' with
      | nil => rfl
      | cons b s'' =>
        cases s'' with
        | nil => rfl
        | cons c rest => exact (hshort a b c rest rfl).elim

theorem stripFence_id : ∀ (s : List Char), rep3 btk s = false → stripFence s = s := by
  intro s
  induction s using stripFence.induct with
  | case1 a b c rest h ih =>
    intro hrep
    exfalso
    simp only [Bool.and_eq_true, decide_eq_true_eq] at h
    obtain ⟨⟨ha, hb⟩, hc⟩ := h
    subst ha; subst hb; subst hc
    have htrue := rep3_head (c := btk) rest
    rw [hrep] at htrue
    exact Bool.false_ne_true htrue
  | case2 a b c rest h ih =>
    intro hrep
    have htail : rep3 btk (b :: c :: rest) = false := by
      cases hx : rep3 btk (b :: c :: rest) with
      | false => rfl
      | true =>
        have htrue := rep3_cons_of (x := a) hx
        rw [hrep] at htrue
        exact (Bool.false_ne_true htrue).elim
    rw [stripFence_cons3_neg h, ih htail]
  | case3 s hshort =>
    intro _
    exact stripFence_short hshort

theorem stripSqlFence_short {s : List Char}
    (h : ∀ (a b c d e f : Char) (rest : List Char),
      s = a :: b :: c :: d :: e :: f :: rest → False) :
    stripSqlFence s = s := by
  match s with
  | [] => rfl
  | [a] => rfl
  | [a, b] => rfl
  | [a, b, c] => rfl
  | [a, b, c, d] => rfl
  | [a, b, c, d, e] => rfl
  | a :: b :: c :: d :: e :: f :: rest => exact (h a b c d e f rest rfl).elim

theorem stripSqlFence_id : ∀ (s : List Char), rep3 btk s = false → stripSqlFence s = s := by
  intro s
  induction s using stripSqlFence.induct with
  | case1 a b c d e f rest h ih =>
    intro hrep
    exfalso
    simp only [Bool.and_eq_true, decide_eq_true_eq] at h
    obtain ⟨⟨⟨⟨⟨ha, hb⟩, hc⟩, _⟩, _⟩, _⟩ := h
    subst ha; subst hb; subst hc
    have htrue := rep3_head (c := btk) (d :: e :: f :: rest)
    rw [hrep] at htrue
    exact Bool.false_ne_true htrue
  | case2 a b c d e f rest h ih =>
    intro hrep
    have htail : rep3 btk (b :: c :: d :: e :: f :: rest) = false := by
      cases hx : rep3 btk (b :: c :: d :: e :: f :: rest) with
      | false => rfl
      | true =>
        have htrue := rep3_cons_of (x := a) hx
        rw [hrep] at htrue
        exact (Bool.false_ne_true htrue).elim
    have hneg : stripSqlFence (a :: b :: c :: d :: e :: f :: rest) =
        a :: stripSqlFence (b :: c :: d :: e :: f :: rest) := by
      simp [stripSqlFence, h]
    rw [hneg, ih htail]
  | case3 s hshort =>
    intro _
    exact stripSqlFence_short hshort

/-! ### Facts about the comment-stripping step -/

theorem rep2_tail {c x : Char} {M : List Char} (h : rep2 c (x :: M) = false) :
    rep2 c M = false := by
  cases hx : rep2 c M with
  | false => rfl
  | true =>
    have htrue := rep2_cons_of (x := x) hx
    rw [h] at htrue
    exact (Bool.false_ne_true htrue).elim

theorem rep3_tail {c x : Char} {M : List Char} (h : rep3 c (x :: M) = false) :
    rep3 c M = false := by
  cases hx : rep3 c M with
  | false => rfl
  | true =>
    have htrue := rep3_cons_of (x := x) hx
    rw [h] at htrue
    exact (Bool.false_ne_true htrue).elim

theorem scTrue_term {c : Char} {cs : List Char} (h : isLineTerm c = true) :
    stripCommentsAux true (c :: cs) = c :: stripCommentsAux false cs := by
  simp [stripCommentsAux, h]

theorem scTrue_skip {c : Char} {cs : List Char} (h : ¬ isLineTerm c = true) :
    stripCommentsAux true (c :: cs) = stripCommentsAux true cs := by
  simp [stripCommentsAux, h]

theorem scFalse_dash {c d : Char} {cs : List Char}
    (h : (decide (c = '-') && decide (d = '-')) = true) :
    stripCommentsAux false (c :: d :: cs) = stripCommentsAux true cs := by
  simp only [Bool.and_eq_true, decide_eq_true_eq] at h
  rw [h.1, h.2]
  simp [stripCommentsAux]

theorem scFalse_cons {c d : Char} {cs : List Char}
    (h : ¬ (decide (c = '-') && decide (d = '-')) = true) :
    stripCommentsAux false (c :: d :: cs) = c :: stripCommentsAux false (d :: cs) := by
  simp [stripCommentsAux, h]

theorem scTrue_shape (cs : List Char) : stripCommentsAux true cs = [] ∨
    ∃ t r, stripCommentsAux true cs = t :: r ∧ isLineTerm t = true := by
  induction cs with
  | nil => exact Or.inl rfl
  | cons c cs ih =>
    by_cases hc : isLineTerm c = true
    · exact Or.inr ⟨c, stripCommentsAux false cs, scTrue_term hc, hc⟩
    · rw [scTrue_skip hc]; exact ih

theorem scFalse_head : ∀ (s : List Char) (x : Char) (r : List Char),
    stripCommentsAux false s = x :: r → isLineTerm x = false → ∃ s', s = x :: s' := by
  intro s
  match s with
  | [] => intro x r h _; cases h
  | [c] =>
    intro x r h _
    have hc : c = x := by
      have : ([c] : List Char) = x :: r := h
      injection this
    exact ⟨[], by rw [hc]⟩
  | c :: d :: cs =>
    intro x r h hx
    by_cases hdash : (decide (c = '-') && decide (d = '-')) = true
    · exfalso
      rw [scFalse_dash hdash] at h
      rcases scTrue_shape cs with h0 | ⟨t, r', ht, hterm⟩
      · rw [h0] at h; cases h
      · rw [ht] at h
        injection h with h1 _
        rw [h1] at hterm
        rw [hterm] at hx
        cases hx
    · rw [scFalse_cons hdash] at h
      injection h with h1 _
      exact ⟨d :: cs, by rw [h1]⟩

theorem scAux_not_rep2 : ∀ (b : Bool) (s : List Char),
    rep2 '-' (stripCommentsAux b s) = false := by
  intro b s
  induction b, s using stripCommentsAux.induct with
  | case1 x => simp [stripCommentsAux, rep2]
  | case2 c cs hterm ih =>
    rw [scTrue_term hterm]
    cases hx : rep2 '-' (c :: stripCommentsAux false cs) with
    | false => rfl
    | true =>
      exfalso
      rcases rep2_cons_elim hx with ⟨hc, _⟩ | h2
      · rw [hc] at hterm; exact absurd hterm (by decide)
      · rw [ih] at h2; exact Bool.false_ne_true h2
  | case3 c cs hterm ih => rw [scTrue_skip hterm]; exact ih
  | case4 c d cs hdash ih => rw [scFalse_dash hdash]; exact ih
  | case5 c d cs hdash ih =>
    rw [scFalse_cons hdash]
    cases hx : rep2 '-' (c :: stripCommentsAux false (d :: cs)) with
    | false => rfl
    | true =>
      exfalso
      rcases rep2_cons_elim hx with ⟨hc, r, hr⟩ | h2
      · obtain ⟨s', hs'⟩ := scFalse_head (d :: cs) '-' r hr (by decide)
        have hd : d = '-' := by injection hs'
        exact hdash (by simp [hc, hd])
      · rw [ih] at h2; exact Bool.false_ne_true h2
  | case6 c => simp [stripCommentsAux, rep2]

theorem scAux_rep3_preserve : ∀ (b : Bool) (s : List Char), rep3 btk s = false →
    rep3 btk (stripCommentsAux b s) = false := by
  intro b s
  induction b, s using stripCommentsAux.induct with
  | case1 x => intro _; simp [stripCommentsAux, rep3]
  | case2 c cs hterm ih =>
    intro h
    rw [scTrue_term hterm]
    cases hx : rep3 btk (c :: stripCommentsAux false cs) with
    | false => rfl
    | true =>
      exfalso
      rcases rep3_cons_elim hx with ⟨hc, _⟩ | h2
      · rw [hc] at hterm
        exact absurd hterm (by rw [isLineTerm_btk]; exact Bool.false_ne_true)
      · rw [ih (rep3_tail h)] at h2; exact Bool.false_ne_true h2
  | case3 c cs hterm ih => intro h; rw [scTrue_skip hterm]; exact ih (rep3_tail h)
  | case4 c d cs hdash ih =>
    intro h
    rw [scFalse_dash hdash]
    exact ih (rep3_tail (rep3_tail h))
  | case5 c d cs hdash ih =>
    intro h
    rw [scFalse_cons hdash]
    cases hx : rep3 btk (c :: stripCommentsAux false (d :: cs)) with
    | false => rfl
    | true =>
      exfalso
      rcases rep3_cons_elim hx with ⟨hc, r, hr⟩ | h2
      · obtain ⟨s', hs'⟩ := scFalse_head (d :: cs) btk (btk :: r) hr isLineTerm_btk
        have hd : d = btk := by injection hs'
        subst hd
        cases cs with
        | nil =>
          have : stripCommentsAux false [btk] = btk :: btk :: r := hr
          simp [stripCommentsAux] at this
        | cons e cs' =>
          have hdash2 : ¬ (decide (btk = '-') && decide (e = '-')) = true := by
            simp only [Bool.and_eq_true, decide_eq_true_eq]
            intro hcc
            exact absurd hcc.1 (by decide)
          rw [scFalse_cons hdash2] at hr
          injection hr with _ hr2
          obtain ⟨s'', hs''⟩ := scFalse_head (e :: cs') btk r hr2 isLineTerm_btk
          have he : e = btk := by injection hs''
          subst he
          subst hc
          have htrue := rep3_head (c := btk) cs'
          rw [h] at htrue
          exact Bool.false_ne_true htrue
      · rw [ih (rep3_tail h)] at h2
        exact Bool.false_ne_true h2
  | case6 c => intro _; simp [stripCommentsAux, rep3]

theorem scAux_id : ∀ (s : List Char), rep2 '-' s = false →
    stripCommentsAux false s = s := by
  intro s
  induction s with
  | nil => intro _; rfl
  | cons c s' ih =>
    intro h
    cases s' with
    | nil => rfl
    | cons d cs =>
      have hdash : ¬ (decide (c = '-') && decide (d = '-')) = true := by
        simp only [Bool.and_eq_true, decide_eq_true_eq]
        intro hcc
        obtain ⟨hc, hd⟩ := hcc
        subst hc; subst hd
        have htrue := rep2_head (c := '-') cs
        rw [h] at htrue
        exact Bool.false_ne_true htrue
      rw [scFalse_cons hdash, ih (rep2_tail h)]

/-! ### Line decomposition facts -/

theorem lineHead_append_lineRest (s : List Char) : lineHead s ++ lineRest s = s :=
  List.takeWhile_append_dropWhile _ _

theorem lineHead_not_term {s : List Char} {c : Char} (h : c ∈ lineHead s) :
    isLineTerm c = false := by
  have := List.mem_takeWhile_imp h
  simpa using this

theorem lineRest_shape (s : List Char) : lineRest s = [] ∨
    ∃ t r, lineRest s = t :: r ∧ isLineTerm t = true := by
  induction s with
  | nil => exact Or.inl rfl
  | cons c s' ih =>
    by_cases hc : isLineTerm c = true
    · refine Or.inr ⟨c, s', ?_, hc⟩
      simp [lineRest, List.dropWhile_cons, hc]
    · have : lineRest (c :: s') = lineRest s' := by
        simp only [Bool.not_eq_true] at hc
        simp [lineRest, List.dropWhile_cons, hc]
      rw [this]; exact ih

theorem lineHead_decomp {L : List Char} {t : Char} (R : List Char)
    (hL : ∀ c ∈ L, isLineTerm c = false) (ht : isLineTerm t = true) :
    lineHead (L ++ t :: R) = L := by
  induction L with
  | nil => simp [lineHead, List.takeWhile_cons, ht]
  | cons c L' ih =>
    have hc : isLineTerm c = false := hL c (by simp)
    have ih' := ih (fun d hd => hL d (by simp [hd]))
    simp only [lineHead, List.cons_append, List.takeWhile_cons, hc]
    simp only [lineHead] at ih'
    simp [ih']

theorem lineRest_decomp {L : List Char} {t : Char} (R : List Char)
    (hL : ∀ c ∈ L, isLineTerm c = false) (ht : isLineTerm t = true) :
    lineRest (L ++ t :: R) = t :: R := by
  induction L with
  | nil => simp [lineRest, List.dropWhile_cons, ht]
  | cons c L' ih =>
    have hc : isLineTerm c = false := hL c (by simp)
    have ih' := ih (fun d hd => hL d (by simp [hd]))
    simp only [lineRest, List.cons_append, List.dropWhile_cons, hc]
    simpa [lineRest] using ih'

theorem lineRest_nil_iff (s : List Char) :
    lineRest s = [] ↔ ∀ c ∈ s, isLineTerm c = false := by
  constructor
  · intro h c hc
    have hs : lineHead s = s := by
      have := lineHead_append_lineRest s
      rw [h, List.append_nil] at this
      exact this
    exact lineHead_not_term (s := s) (by rw [hs]; exact hc)
  · intro h
    induction s with
    | nil => rfl
    | cons c s' ih =>
      have hc : isLineTerm c = false := h c (by simp)
      simp only [lineRest, List.dropWhile_cons, hc]
      exact ih (fun d hd => h d (by simp [hd]))


theorem lineRest_head_term {s : List Char} {t : Char} {r : List Char}
    (h : lineRest s = t :: r) : isLineTerm t = true := by
  rcases lineRest_shape s with h0 | ⟨t', r', h', ht'⟩
  · rw [h0] at h; cases h
  · rw [h'] at h; injection h with h1 _; rw [← h1]; exact ht'

theorem lineSplit {s : List Char} {t : Char} {r : List Char}
    (h : lineRest s = t :: r) : s = lineHead s ++ t :: r := by
  conv_lhs => rw [← lineHead_append_lineRest s]
  rw [h]

/-! ### Computing the blank-line match length -/

theorem isCrLf_isLineTerm {c : Char} (h : isCrLf c = true) : isLineTerm c = true := by
  simp only [isCrLf, Bool.or_eq_true, decide_eq_true_eq] at h
  simp only [isLineTerm, Bool.or_eq_true, decide_eq_true_eq]
  omega

theorem isCrLf_of_notTerm {c : Char} (h : isLineTerm c = false) : isCrLf c = false := by
  cases hc : isCrLf c with
  | false => rfl
  | true => rw [isCrLf_isLineTerm hc] at h; exact Bool.noConfusion h

theorem jsWs_of_isCrLf {c : Char} (h : isCrLf c = true) : jsWs c = true :=
  jsWs_of_isLineTerm (isCrLf_isLineTerm h)

theorem mem_of_takeWhile {c : Char} {q : Char → Bool} :
    ∀ {l : List Char}, c ∈ l.takeWhile q → c ∈ l := by
  intro l
  induction l with
  | nil => intro h; simp [List.takeWhile_nil] at h
  | cons x xs ih =>
    intro h
    rw [List.takeWhile_cons] at h
    by_cases hx : q x = true
    · rw [if_pos hx] at h
      rcases List.mem_cons.mp h with h1 | h2
      · exact List.mem_cons.mpr (Or.inl h1)
      · exact List.mem_cons.mpr (Or.inr (ih h2))
    · rw [if_neg hx] at h
      simp at h

theorem dropWhile_head_false {q : Char → Bool} :
    ∀ {l : List Char} {d : Char} {D : List Char}, l.dropWhile q = d :: D → q d = false := by
  intro l
  induction l with
  | nil => intro d D h; simp [List.dropWhile_nil] at h
  | cons x xs ih =>
    intro d D h
    rw [List.dropWhile_cons] at h
    by_cases hx : q x = true
    · rw [if_pos hx] at h
      exact ih h
    · rw [if_neg hx] at h
      injection h with h1 _
      rw [← h1]
      simpa using hx

theorem lastCrLfLen_cons (x : Char) (M : List Char) :
    lastCrLfLen (x :: M) =
      if lastCrLfLen M = 0 then (if isCrLf x then 1 else 0) else lastCrLfLen M + 1 :=
  rfl

theorem lastCrLfLen_zero {l : List Char} (h : ∀ c ∈ l, isCrLf c = false) :
    lastCrLfLen l = 0 := by
  induction l with
  | nil => rfl
  | cons c cs ih =>
    have hc := h c (by simp)
    have ih2 := ih (fun d hd => h d (by simp [hd]))
    rw [lastCrLfLen_cons, if_pos ih2, hc]
    simp

theorem lastCrLfLen_zero_elim : ∀ {l : List Char}, lastCrLfLen l = 0 →
    ∀ c ∈ l, isCrLf c = false := by
  intro l
  induction l with
  | nil => intro _ c hc; simp at hc
  | cons x xs ih =>
    intro h c hc
    rw [lastCrLfLen_cons] at h
    by_cases hz : lastCrLfLen xs = 0
    · rw [if_pos hz] at h
      rcases List.mem_cons.mp hc with h1 | h2
      · rw [h1]
        cases hx : isCrLf x with
        | false => rfl
        | true => rw [if_pos hx] at h; exact absurd h (by decide)
      · exact ih hz c h2
    · rw [if_neg hz] at h
      exact absurd h (by omega)

theorem lastCrLfLen_pos_of_mem {l : List Char} {x : Char} (hx : x ∈ l)
    (hcr : isCrLf x = true) : ¬ lastCrLfLen l = 0 := by
  intro h
  rw [lastCrLfLen_zero_elim h x hx] at hcr
  exact Bool.noConfusion hcr

theorem lastCrLfLen_split : ∀ {l : List Char}, ¬ lastCrLfLen l = 0 →
    ∃ A x B, l = A ++ x :: B ∧ isCrLf x = true ∧ A.length + 1 = lastCrLfLen l := by
  intro l
  induction l with
  | nil => intro h; exact absurd rfl h
  | cons c cs ih =>
    intro h
    by_cases hz : lastCrLfLen cs = 0
    · have hc : isCrLf c = true := by
        by_contra hcf
        exact h (by rw [lastCrLfLen_cons, if_pos hz, if_neg hcf])
      refine ⟨[], c, cs, rfl, hc, ?_⟩
      rw [lastCrLfLen_cons, if_pos hz, if_pos hc]
      simp
    · obtain ⟨A, x, B, hsplit, hx, hlen⟩ := ih hz
      refine ⟨c :: A, x, B, by rw [List.cons_append, ← hsplit], hx, ?_⟩
      rw [lastCrLfLen_cons, if_neg hz]
      simp only [List.length_cons]
      omega

theorem takeWhile_ws_append {L : List Char} {t : Char} (R : List Char)
    (hall : L.all jsWs = true) (ht : isLineTerm t = true) :
    (L ++ t :: R).takeWhile jsWs = L ++ t :: R.takeWhile jsWs := by
  induction L with
  | nil => simp [List.takeWhile_cons, jsWs_of_isLineTerm ht]
  | cons c L' ih =>
    have hc : jsWs c = true := by
      have h' := hall
      simp only [List.all_cons, Bool.and_eq_true] at h'
      exact h'.1
    have hall' : L'.all jsWs = true := by
      have h' := hall
      simp only [List.all_cons, Bool.and_eq_true] at h'
      exact h'.2
    simp only [List.cons_append, List.takeWhile_cons, hc, if_true]
    rw [ih hall']

theorem takeWhile_ws_all : ∀ (L : List Char), (∀ c ∈ L, jsWs c = true) →
    ∀ (R : List Char), (L ++ R).takeWhile jsWs = L ++ R.takeWhile jsWs := by
  intro L
  induction L with
  | nil => intro _ R; simp
  | cons c L2 ih =>
    intro hall R
    have hc := hall c (by simp)
    simp only [List.cons_append, List.takeWhile_cons, hc, if_true]
    rw [ih (fun d hd => hall d (by simp [hd])) R]

theorem takeWhile_ws_stop : ∀ (L : List Char), ¬ (∀ c ∈ L, jsWs c = true) →
    ∀ (R : List Char), (L ++ R).takeWhile jsWs = L.takeWhile jsWs := by
  intro L
  induction L with
  | nil =>
    intro h
    exact absurd (by intro c hc; simp at hc) h
  | cons c L2 ih =>
    intro h R
    by_cases hc : jsWs c = true
    · have h2 : ¬ (∀ d ∈ L2, jsWs d = true) := by
        intro hall
        apply h
        intro d hd
        rcases List.mem_cons.mp hd with h1 | h2m
        · rw [h1]; exact hc
        · exact hall d h2m
      simp only [List.cons_append, List.takeWhile_cons, hc, if_true]
      rw [ih h2 R]
    · simp only [List.cons_append, List.takeWhile_cons]
      rw [if_neg hc, if_neg hc]

theorem reMatchBlank_zero_noTerm {s : List Char} (h : ∀ c ∈ s, isLineTerm c = false) :
    reMatchBlank s = 0 := by
  rw [reMatchBlank]
  apply lastCrLfLen_zero
  intro c hc
  exact isCrLf_of_notTerm (h c (mem_of_takeWhile hc))

theorem reMatchBlank_cons_nonws {c : Char} (h : jsWs c = false) (cs : List Char) :
    reMatchBlank (c :: cs) = 0 := by
  rw [reMatchBlank, List.takeWhile_cons, if_neg (by rw [h]; simp)]
  rfl

/-- Rebuilding a matchless line head and terminator in front of a matchless
tail keeps the blank-line pattern matchless. -/
theorem reMatch0_glue {L : List Char} {t : Char} {r X : List Char}
    (hL : ∀ c ∈ L, isLineTerm c = false) (ht : isLineTerm t = true)
    (h1 : reMatchBlank (L ++ t :: r) = 0) (h2 : reMatchBlank X = 0) :
    reMatchBlank (L ++ t :: X) = 0 := by
  by_cases hall : ∀ c ∈ L, jsWs c = true
  · have halb : L.all jsWs = true := List.all_eq_true.mpr (fun c hc => hall c hc)
    have hrun1 : (L ++ t :: r).takeWhile jsWs = L ++ t :: r.takeWhile jsWs :=
      takeWhile_ws_append r halb ht
    have hrun2 : (L ++ t :: X).takeWhile jsWs = L ++ t :: X.takeWhile jsWs :=
      takeWhile_ws_append X halb ht
    have hct : isCrLf t = false := by
      by_contra hcf
      have hcf2 : isCrLf t = true := by simpa using hcf
      have hmem : t ∈ (L ++ t :: r).takeWhile jsWs := by
        rw [hrun1]
        exact List.mem_append.mpr (Or.inr (List.mem_cons_self t _))
      exact lastCrLfLen_pos_of_mem hmem hcf2 h1
    rw [reMatchBlank, hrun2]
    apply lastCrLfLen_zero
    intro c hc
    rcases List.mem_append.mp hc with hcl | hcr
    · exact isCrLf_of_notTerm (hL c hcl)
    · rcases List.mem_cons.mp hcr with h1c | h2c
      · rw [h1c]; exact hct
      · exact lastCrLfLen_zero_elim h2 c h2c
  · rw [reMatchBlank, takeWhile_ws_stop L hall (t :: X)]
    rw [reMatchBlank, takeWhile_ws_stop L hall (t :: r)] at h1
    exact h1

/-- Appending terminator-free text to a matchless string keeps the blank-line
pattern matchless. -/
theorem reMatch0_append {r z : List Char} (hz : ∀ c ∈ z, isLineTerm c = false)
    (hr : reMatchBlank r = 0) : reMatchBlank (r ++ z) = 0 := by
  by_cases hall : ∀ c ∈ r, jsWs c = true
  · have hrw : r.takeWhile jsWs = r := by
      have h0 := takeWhile_ws_all r hall []
      simpa using h0
    rw [reMatchBlank, takeWhile_ws_all r hall z]
    apply lastCrLfLen_zero
    intro c hc
    rcases List.mem_append.mp hc with hcr | hcz
    · exact lastCrLfLen_zero_elim hr c (by rw [hrw]; exact hcr)
    · exact isCrLf_of_notTerm (hz c (mem_of_takeWhile hcz))
  · rw [reMatchBlank, takeWhile_ws_stop r hall z]
    exact hr

/-! ### Equations of the single-pass `sbAux` -/

theorem sbAux_nil (pend : List Char) (b : Bool) : sbAux pend b [] = pend.reverse := by
  cases b <;> rfl

theorem sbAux_true_crlf {c : Char} (h : isCrLf c = true) (pend cs : List Char) :
    sbAux pend true (c :: cs) = sbAux [] true cs := by
  simp [sbAux, h]

theorem sbAux_true_ws {c : Char} (h1 : isCrLf c = false) (h2 : jsWs c = true)
    (pend cs : List Char) :
    sbAux pend true (c :: cs) = sbAux (c :: pend) true cs := by
  simp [sbAux, h1, h2]

theorem sbAux_true_flush {c : Char} (h : jsWs c = false) (pend cs : List Char) :
    sbAux pend true (c :: cs) = pend.reverse ++ c :: sbAux [] false cs := by
  have h1 : isCrLf c = false := by
    cases hc : isCrLf c with
    | false => rfl
    | true => rw [jsWs_of_isCrLf hc] at h; exact Bool.noConfusion h
  simp [sbAux, h1, h]

theorem sbAux_false_term {c : Char} (h : isLineTerm c = true) (pend cs : List Char) :
    sbAux pend false (c :: cs) = c :: sbAux [] true cs := by
  simp [sbAux, h]

theorem sbAux_false_copy {c : Char} (h : isLineTerm c = false) (pend cs : List Char) :
    sbAux pend false (c :: cs) = c :: sbAux [] false cs := by
  simp [sbAux, h]

theorem sbAux_false_run : ∀ (M : List Char), (∀ c ∈ M, isLineTerm c = false) →
    ∀ rest, sbAux [] false (M ++ rest) = M ++ sbAux [] false rest := by
  intro M
  induction M with
  | nil => intro _ rest; simp
  | cons c M2 ih =>
    intro hM rest
    have hc : isLineTerm c = false := hM c (by simp)
    rw [List.cons_append, sbAux_false_copy hc, ih (fun d hd => hM d (by simp [hd])),
      List.cons_append]

theorem sbAux_false_id {M : List Char} (hM : ∀ c ∈ M, isLineTerm c = false) :
    sbAux [] false M = M := by
  have h := sbAux_false_run M hM []
  rw [List.append_nil] at h
  rw [h, sbAux_nil]
  simp

theorem sbAux_true_wsrun : ∀ (W : List Char),
    (∀ c ∈ W, jsWs c = true ∧ isCrLf c = false) →
    ∀ (pend rest : List Char),
    sbAux pend true (W ++ rest) = sbAux (W.reverse ++ pend) true rest := by
  intro W
  induction W with
  | nil => intro _ pend rest; simp
  | cons c W2 ih =>
    intro hW pend rest
    obtain ⟨hws, hcr⟩ := hW c (by simp)
    rw [List.cons_append, sbAux_true_ws hcr hws, ih (fun d hd => hW d (by simp [hd]))]
    congr 1
    simp

theorem sbAux_true_discard : ∀ (A : List Char), (∀ c ∈ A, jsWs c = true) →
    ∀ (pend : List Char) {x : Char}, isCrLf x = true →
    ∀ (tail : List Char), sbAux pend true (A ++ x :: tail) = sbAux [] true tail := by
  intro A
  induction A with
  | nil =>
    intro _ pend x hx tail
    rw [List.nil_append, sbAux_true_crlf hx]
  | cons c A2 ih =>
    intro hA pend x hx tail
    have hc : jsWs c = true := hA c (by simp)
    by_cases hcr : isCrLf c = true
    · rw [List.cons_append, sbAux_true_crlf hcr]
      exact ih (fun d hd => hA d (by simp [hd])) [] hx tail
    · have hcr2 : isCrLf c = false := by simpa using hcr
      rw [List.cons_append, sbAux_true_ws hcr2 hc]
      exact ih (fun d hd => hA d (by simp [hd])) (c :: pend) hx tail

theorem sbAux_true_noTermRun : ∀ (s : List Char), (∀ c ∈ s, isLineTerm c = false) →
    ∀ (pend : List Char), sbAux pend true s = pend.reverse ++ s := by
  intro s
  induction s with
  | nil => intro _ pend; rw [sbAux_nil]; simp
  | cons c cs ih =>
    intro hs pend
    have hc : isLineTerm c = false := hs c (by simp)
    have hcr : isCrLf c = false := isCrLf_of_notTerm hc
    by_cases hw : jsWs c = true
    · rw [sbAux_true_ws hcr hw, ih (fun d hd => hs d (by simp [hd]))]
      simp
    · have hw2 : jsWs c = false := by simpa using hw
      rw [sbAux_true_flush hw2, sbAux_false_id (fun d hd => hs d (by simp [hd]))]

/-- When the blank-line pattern has no match, the held-back whitespace of the
single pass is flushed unchanged. -/
theorem sbAux_true_pend {s : List Char} (h : reMatchBlank s = 0) :
    ∀ (pend : List Char), sbAux pend true s = pend.reverse ++ sbAux [] true s := by
  intro pend
  have hsplit : s.takeWhile jsWs ++ s.dropWhile jsWs = s :=
    List.takeWhile_append_dropWhile _ _
  have hW : ∀ c ∈ s.takeWhile jsWs, jsWs c = true ∧ isCrLf c = false := by
    intro c hc
    exact ⟨List.mem_takeWhile_imp hc, lastCrLfLen_zero_elim h c hc⟩
  cases hD : s.dropWhile jsWs with
  | nil =>
    have hsW : s = s.takeWhile jsWs := by
      conv_lhs => rw [← hsplit]
      rw [hD, List.append_nil]
    have h1 := sbAux_true_wsrun (s.takeWhile jsWs) hW pend []
    have h2 := sbAux_true_wsrun (s.takeWhile jsWs) hW [] []
    rw [List.append_nil] at h1 h2
    conv_lhs => rw [hsW]
    conv_rhs => rw [hsW]
    rw [h1, h2, sbAux_nil, sbAux_nil]
    simp
  | cons d D2 =>
    have hd : jsWs d = false := dropWhile_head_false hD
    have hsW : s = s.takeWhile jsWs ++ d :: D2 := by
      conv_lhs => rw [← hsplit]
      rw [hD]
    conv_lhs => rw [hsW]
    conv_rhs => rw [hsW]
    rw [sbAux_true_wsrun (s.takeWhile jsWs) hW pend (d :: D2),
      sbAux_true_wsrun (s.takeWhile jsWs) hW [] (d :: D2),
      sbAux_true_flush hd, sbAux_true_flush hd]
    simp

/-! ### The match-structured equations of `stripBlankFast` -/

/-- At a position with a match, the single pass removes exactly the matched
text (running from the line start through the last CR/LF of the maximal
whitespace run). -/
theorem sbF_drop_match {s : List Char} (h : ¬ reMatchBlank s = 0) :
    stripBlankFast (s.drop (reMatchBlank s)) = stripBlankFast s := by
  obtain ⟨A, x, B, hsplit, hx, hlen⟩ := lastCrLfLen_split (l := s.takeWhile jsWs) h
  have hA : ∀ c ∈ A, jsWs c = true := by
    intro c hc
    have hmem : c ∈ s.takeWhile jsWs := by
      rw [hsplit]; exact List.mem_append.mpr (Or.inl hc)
    exact List.mem_takeWhile_imp hmem
  have hs2 : s = A ++ x :: (B ++ s.dropWhile jsWs) := by
    conv_lhs => rw [← List.takeWhile_append_dropWhile jsWs s]
    rw [hsplit]
    simp
  have hdrop : s.drop (reMatchBlank s) = B ++ s.dropWhile jsWs := by
    have hk : reMatchBlank s = (A ++ [x]).length := by
      rw [reMatchBlank, ← hlen]
      simp
    rw [hk]
    conv_lhs => rw [hs2]
    have hre : A ++ x :: (B ++ s.dropWhile jsWs) =
        (A ++ [x]) ++ (B ++ s.dropWhile jsWs) := by simp
    rw [hre, List.drop_left]
  rw [hdrop, stripBlankFast, stripBlankFast]
  conv_rhs => rw [hs2]
  rw [sbAux_true_discard A hA [] hx (B ++ s.dropWhile jsWs)]

theorem sbF_noTerm {s : List Char} (h : lineRest s = []) : stripBlankFast s = s := by
  have hall : ∀ c ∈ s, isLineTerm c = false := (lineRest_nil_iff s).mp h
  rw [stripBlankFast, sbAux_true_noTermRun s hall []]
  simp

/-- At a matchless line start, the first line and its terminator are copied
verbatim (whether or not the line is blank — a blank line terminated by
U+2028/U+2029 with no later CR/LF in the run is kept). -/
theorem sbF_keep {s : List Char} {t : Char} {r : List Char}
    (hz : reMatchBlank s = 0) (h : lineRest s = t :: r) :
    stripBlankFast s = lineHead s ++ t :: stripBlankFast r := by
  have ht : isLineTerm t = true := lineRest_head_term h
  have hs := lineSplit h
  have hLnt : ∀ c ∈ lineHead s, isLineTerm c = false := fun c hc => lineHead_not_term hc
  have hLsplit : (lineHead s).takeWhile jsWs ++ (lineHead s).dropWhile jsWs = lineHead s :=
    List.takeWhile_append_dropWhile _ _
  have hWp : ∀ c ∈ (lineHead s).takeWhile jsWs, jsWs c = true ∧ isCrLf c = false := by
    intro c hc
    exact ⟨List.mem_takeWhile_imp hc,
      isCrLf_of_notTerm (hLnt c (mem_of_takeWhile hc))⟩
  cases hM : (lineHead s).dropWhile jsWs with
  | nil =>
    have hLW : lineHead s = (lineHead s).takeWhile jsWs := by
      conv_lhs => rw [← hLsplit]
      rw [hM, List.append_nil]
    have hallL : ∀ c ∈ lineHead s, jsWs c = true := by
      intro c hc
      exact (hWp c (by rw [← hLW]; exact hc)).1
    have halb : (lineHead s).all jsWs = true := List.all_eq_true.mpr hallL
    have hrun : s.takeWhile jsWs = lineHead s ++ t :: r.takeWhile jsWs := by
      conv_lhs => rw [hs]
      exact takeWhile_ws_append r halb ht
    have hct : isCrLf t = false := by
      by_contra hcf
      have hcf2 : isCrLf t = true := by simpa using hcf
      have hmem : t ∈ s.takeWhile jsWs := by
        rw [hrun]
        exact List.mem_append.mpr (Or.inr (List.mem_cons_self t _))
      exact lastCrLfLen_pos_of_mem hmem hcf2 hz
    have hrz : reMatchBlank r = 0 := by
      apply lastCrLfLen_zero
      intro c hc
      apply lastCrLfLen_zero_elim (l := s.takeWhile jsWs) hz c
      rw [hrun]
      exact List.mem_append.mpr (Or.inr (List.mem_cons.mpr (Or.inr hc)))
    have h1 : stripBlankFast s =
        sbAux ((lineHead s).takeWhile jsWs).reverse true (t :: r) := by
      rw [stripBlankFast]
      conv_lhs => rw [hs, hLW]
      have h0 := sbAux_true_wsrun ((lineHead s).takeWhile jsWs) hWp [] (t :: r)
      rw [List.append_nil] at h0
      exact h0
    have h2 : sbAux ((lineHead s).takeWhile jsWs).reverse true (t :: r) =
        sbAux (t :: ((lineHead s).takeWhile jsWs).reverse) true r :=
      sbAux_true_ws hct (jsWs_of_isLineTerm ht) _ _
    have h3 := sbAux_true_pend hrz (t :: ((lineHead s).takeWhile jsWs).reverse)
    rw [h1, h2, h3, stripBlankFast]
    conv_rhs => rw [hLW]
    simp
  | cons m M2 =>
    have hm : jsWs m = false := dropWhile_head_false hM
    have hLW : lineHead s = (lineHead s).takeWhile jsWs ++ m :: M2 := by
      conv_lhs => rw [← hLsplit]
      rw [hM]
    have hM2nt : ∀ c ∈ M2, isLineTerm c = false := by
      intro c hc
      apply hLnt c
      rw [hLW]
      exact List.mem_append.mpr (Or.inr (List.mem_cons.mpr (Or.inr hc)))
    have h1 : stripBlankFast s =
        sbAux ((lineHead s).takeWhile jsWs).reverse true (m :: (M2 ++ t :: r)) := by
      rw [stripBlankFast]
      conv_lhs => rw [hs, hLW]
      have h0 := sbAux_true_wsrun ((lineHead s).takeWhile jsWs) hWp [] (m :: (M2 ++ t :: r))
      rw [List.append_nil] at h0
      rw [← h0]
      simp [List.append_assoc]
    have h2 := sbAux_true_flush hm (((lineHead s).takeWhile jsWs).reverse) (M2 ++ t :: r)
    have h3 := sbAux_false_run M2 hM2nt (t :: r)
    rw [h1, h2, h3, sbAux_false_term ht, stripBlankFast]
    conv_rhs => rw [hLW]
    simp

/-- Induction following the blank-line removal: a position with a match
(recursing past the matched text), a terminator-free string, or a matchless
line start (recursing past the first line and its terminator). -/
theorem lineInd (motive : List Char → Prop)
    (h1 : ∀ s, ¬ reMatchBlank s = 0 → motive (s.drop (reMatchBlank s)) → motive s)
    (h2 : ∀ s, reMatchBlank s = 0 → lineRest s = [] → motive s)
    (h3 : ∀ s t r, reMatchBlank s = 0 → lineRest s = t :: r → motive r → motive s) :
    ∀ s, motive s := by
  have key : ∀ (n : Nat) (s : List Char), s.length ≤ n → motive s := by
    intro n
    induction n with
    | zero =>
      intro s hs
      have hnil : s = [] := by
        cases s with
        | nil => rfl
        | cons c s2 => simp at hs
      subst hnil
      exact h2 [] rfl rfl
    | succ n ih =>
      intro s hs
      by_cases hz : reMatchBlank s = 0
      · rcases lineRest_shape s with h | ⟨t, r, h, _⟩
        · exact h2 s hz h
        · have hsplit : s = lineHead s ++ t :: r := lineSplit h
          have hlen : r.length ≤ n := by
            have := congrArg List.length hsplit
            simp only [List.length_append, List.length_cons] at this
            omega
          exact h3 s t r hz h (ih r hlen)
      · have hne : ¬ s = [] := by
          intro he
          rw [he] at hz
          exact hz rfl
        have hpos : 0 < s.length := by
          cases s with
          | nil => exact absurd rfl hne
          | cons c s2 => simp
        have hk : 0 < reMatchBlank s := Nat.pos_of_ne_zero hz
        have hlen : (s.drop (reMatchBlank s)).length ≤ n := by
          simp only [List.length_drop]
          omega
        exact h1 s hz (ih _ hlen)
  exact fun s => key s.length s (le_refl _)

theorem sbF_length_le : ∀ s : List Char, (stripBlankFast s).length ≤ s.length := by
  intro s
  induction s using lineInd with
  | h1 s hz ih =>
    rw [← sbF_drop_match hz]
    calc (stripBlankFast (s.drop (reMatchBlank s))).length
        ≤ (s.drop (reMatchBlank s)).length := ih
      _ ≤ s.length := by simp only [List.length_drop]; omega
  | h2 s hz h => rw [sbF_noTerm h]
  | h3 s t r hz h ih =>
    rw [sbF_keep hz h]
    have := congrArg List.length (lineSplit h)
    simp only [List.length_append, List.length_cons] at this
    simp only [List.length_append, List.length_cons]
    omega

/-! ### Fixed points of the blank-line removal -/

theorem rep2_split_left {c : Char} {X Z : List Char}
    (h : rep2 c (X ++ Z) = false) : rep2 c X = false := by
  cases hx : rep2 c X with
  | false => rfl
  | true =>
    have := rep2_append_left Z hx
    rw [h] at this
    exact (Bool.false_ne_true this).elim

theorem rep2_split_right {c : Char} {X Z : List Char}
    (h : rep2 c (X ++ Z) = false) : rep2 c Z = false := by
  cases hx : rep2 c Z with
  | false => rfl
  | true =>
    have := rep2_append_right X hx
    rw [h] at this
    exact (Bool.false_ne_true this).elim

theorem rep3_split_left {c : Char} {X Z : List Char}
    (h : rep3 c (X ++ Z) = false) : rep3 c X = false := by
  cases hx : rep3 c X with
  | false => rfl
  | true =>
    have := rep3_append_left Z hx
    rw [h] at this
    exact (Bool.false_ne_true this).elim

theorem rep3_split_right {c : Char} {X Z : List Char}
    (h : rep3 c (X ++ Z) = false) : rep3 c Z = false := by
  cases hx : rep3 c Z with
  | false => rfl
  | true =>
    have := rep3_append_right X hx
    rw [h] at this
    exact (Bool.false_ne_true this).elim

/-- The output of the blank-line removal has no match at its start. -/
theorem sbF_rmb0 : ∀ s : List Char, reMatchBlank (stripBlankFast s) = 0 := by
  intro s
  induction s using lineInd with
  | h1 s hz ih => rw [← sbF_drop_match hz]; exact ih
  | h2 s hz h => rw [sbF_noTerm h]; exact hz
  | h3 s t r hz h ih =>
    rw [sbF_keep hz h]
    have ht := lineRest_head_term h
    have hLnt : ∀ c ∈ lineHead s, isLineTerm c = false := fun c hc => lineHead_not_term hc
    have hz2 : reMatchBlank (lineHead s ++ t :: r) = 0 := by rw [← lineSplit h]; exact hz
    exact reMatch0_glue hLnt ht hz2 ih

/-- A fixed point of the blank-line removal has no match at its start. -/
theorem sbF_fix_rmb {s : List Char} (hfix : stripBlankFast s = s) :
    reMatchBlank s = 0 := by
  by_contra hz
  have h1 : stripBlankFast (s.drop (reMatchBlank s)) = s := by
    rw [sbF_drop_match hz, hfix]
  have h2 := sbF_length_le (s.drop (reMatchBlank s))
  rw [h1] at h2
  have hk : 0 < reMatchBlank s := Nat.pos_of_ne_zero hz
  have hne : ¬ s = [] := by
    intro he
    rw [he] at hz
    exact hz rfl
  have hpos : 0 < s.length := by
    cases s with
    | nil => exact absurd rfl hne
    | cons c s2 => simp
  simp only [List.length_drop] at h2
  omega

theorem sbF_idem : ∀ s : List Char,
    stripBlankFast (stripBlankFast s) = stripBlankFast s := by
  intro s
  induction s using lineInd with
  | h1 s hz ih => rw [← sbF_drop_match hz]; exact ih
  | h2 s hz h => rw [sbF_noTerm h, sbF_noTerm h]
  | h3 s t r hz h ih =>
    have ht := lineRest_head_term h
    have hLnt : ∀ c ∈ lineHead s, isLineTerm c = false := fun c hc => lineHead_not_term hc
    have hz2 : reMatchBlank (lineHead s ++ t :: r) = 0 := by rw [← lineSplit h]; exact hz
    have hzk : reMatchBlank (lineHead s ++ t :: stripBlankFast r) = 0 :=
      reMatch0_glue hLnt ht hz2 (sbF_rmb0 r)
    have hlh := lineHead_decomp (L := lineHead s) (stripBlankFast r) hLnt ht
    have hlr := lineRest_decomp (L := lineHead s) (stripBlankFast r) hLnt ht
    rw [sbF_keep hz h, sbF_keep hzk hlr, hlh, ih]

theorem sbF_fix_inv {s : List Char} {t : Char} {r : List Char}
    (hfix : stripBlankFast s = s) (h : lineRest s = t :: r) :
    reMatchBlank s = 0 ∧ stripBlankFast r = r := by
  have hz := sbF_fix_rmb hfix
  refine ⟨hz, ?_⟩
  have h1 : stripBlankFast s = lineHead s ++ t :: stripBlankFast r := sbF_keep hz h
  rw [hfix] at h1
  conv_lhs at h1 => rw [lineSplit h]
  have h2 := List.append_cancel_left h1
  injection h2 with _ h3
  exact h3.symm

theorem sbF_fix_front {s : List Char} {c0 : Char} {p2 : List Char}
    (hfix : stripBlankFast s = s)
    (hp : ∀ c ∈ c0 :: p2, isLineTerm c = false) (hc0 : jsWs c0 = false) :
    stripBlankFast ((c0 :: p2) ++ s) = (c0 :: p2) ++ s := by
  rcases lineRest_shape s with h | ⟨t, r, h, ht⟩
  · apply sbF_noTerm
    rw [lineRest_nil_iff]
    intro c hc
    rcases List.mem_append.mp hc with hcp | hcs
    · exact hp c hcp
    · exact (lineRest_nil_iff s).mp h c hcs
  · obtain ⟨hz, hfixr⟩ := sbF_fix_inv hfix h
    have hs := lineSplit h
    have hps : (c0 :: p2) ++ s = ((c0 :: p2) ++ lineHead s) ++ t :: r := by
      rw [List.append_assoc]
      conv_lhs => rw [hs]
    have hpl : ∀ c ∈ (c0 :: p2) ++ lineHead s, isLineTerm c = false := by
      intro c hc
      rcases List.mem_append.mp hc with hcp | hcl
      · exact hp c hcp
      · exact lineHead_not_term hcl
    have hlh := lineHead_decomp (L := (c0 :: p2) ++ lineHead s) r hpl ht
    have hlr := lineRest_decomp (L := (c0 :: p2) ++ lineHead s) r hpl ht
    have hz2 : reMatchBlank (((c0 :: p2) ++ lineHead s) ++ t :: r) = 0 := by
      rw [← hps]
      exact reMatchBlank_cons_nonws hc0 (p2 ++ s)
    rw [hps, sbF_keep hz2 hlr, hlh, hfixr]

theorem sbF_fix_pre : ∀ p : List Char, ∀ q, stripBlankFast (p ++ q) = p ++ q →
    stripBlankFast p = p := by
  intro p
  induction p using lineInd with
  | h1 p hz ih =>
    intro q hfix
    exfalso
    have hzq : ¬ reMatchBlank (p ++ q) = 0 := by
      by_cases hall : ∀ c ∈ p, jsWs c = true
      · obtain ⟨A, x, B, hsplit, hx, _⟩ := lastCrLfLen_split (l := p.takeWhile jsWs) hz
        have hxmem : x ∈ p := by
          apply mem_of_takeWhile (q := jsWs)
          rw [hsplit]
          exact List.mem_append.mpr (Or.inr (List.mem_cons_self x _))
        intro h0
        have hxmem2 : x ∈ (p ++ q).takeWhile jsWs := by
          rw [takeWhile_ws_all p hall q]
          exact List.mem_append.mpr (Or.inl hxmem)
        exact lastCrLfLen_pos_of_mem hxmem2 hx h0
      · intro h0
        rw [reMatchBlank, takeWhile_ws_stop p hall q] at h0
        exact hz h0
    exact hzq (sbF_fix_rmb hfix)
  | h2 p hz h =>
    intro q hfix
    exact sbF_noTerm h
  | h3 p t r hz h ih =>
    intro q hfix
    have hs := lineSplit h
    have hps : p ++ q = lineHead p ++ t :: (r ++ q) := by
      conv_lhs => rw [hs]
      simp [List.append_assoc]
    have hLnt : ∀ c ∈ lineHead p, isLineTerm c = false := fun c hc => lineHead_not_term hc
    have ht := lineRest_head_term h
    have hlr := lineRest_decomp (L := lineHead p) (r ++ q) hLnt ht
    rw [hps] at hfix
    obtain ⟨_, hfixrq⟩ := sbF_fix_inv hfix hlr
    have hr := ih q hfixrq
    rw [sbF_keep hz h, hr, ← hs]

theorem sbF_fix_app {s z : List Char} (hfix : stripBlankFast s = s)
    (hz : ∀ c ∈ z, isLineTerm c = false) :
    stripBlankFast (s ++ z) = s ++ z := by
  induction s using lineInd with
  | h1 s hz1 ih =>
    exact absurd (sbF_fix_rmb hfix) hz1
  | h2 s hz1 h =>
    apply sbF_noTerm
    rw [lineRest_nil_iff]
    intro c hc
    rcases List.mem_append.mp hc with hcs | hcz
    · exact (lineRest_nil_iff s).mp h c hcs
    · exact hz c hcz
  | h3 s t r hz1 h ih =>
    obtain ⟨_, hfixr⟩ := sbF_fix_inv hfix h
    have hs := lineSplit h
    have hsz : s ++ z = lineHead s ++ t :: (r ++ z) := by
      conv_lhs => rw [hs]
      simp [List.append_assoc]
    have hLnt : ∀ c ∈ lineHead s, isLineTerm c = false := fun c hc => lineHead_not_term hc
    have ht := lineRest_head_term h
    have hlh := lineHead_decomp (L := lineHead s) (r ++ z) hLnt ht
    have hlr := lineRest_decomp (L := lineHead s) (r ++ z) hLnt ht
    have hz3 : reMatchBlank (lineHead s ++ t :: r) = 0 := by rw [← hs]; exact hz1
    have hrz : reMatchBlank (r ++ z) = 0 := reMatch0_append hz (sbF_fix_rmb hfixr)
    have hz4 : reMatchBlank (lineHead s ++ t :: (r ++ z)) = 0 :=
      reMatch0_glue hLnt ht hz3 hrz
    rw [hsz, sbF_keep hz4 hlr, hlh, ih hfixr]

/-! ### The blank-line removal preserves marker-freedom -/

theorem sbF_rep2_preserve {c : Char} (hc : isLineTerm c = false) :
    ∀ s, rep2 c s = false → rep2 c (stripBlankFast s) = false := by
  intro s
  induction s using lineInd with
  | h1 s hz ih =>
    intro hrep
    rw [← sbF_drop_match hz]
    apply ih
    cases hx : rep2 c (s.drop (reMatchBlank s)) with
    | false => rfl
    | true =>
      rw [rep2_drop _ hx] at hrep
      exact Bool.noConfusion hrep
  | h2 s hz h => intro hrep; rw [sbF_noTerm h]; exact hrep
  | h3 s t r hz h ih =>
    intro hrep
    rw [sbF_keep hz h]
    have hs := lineSplit h
    have ht := lineRest_head_term h
    have htc : ¬ t = c := by
      intro he; rw [he, hc] at ht; exact Bool.noConfusion ht
    cases hx : rep2 c (lineHead s ++ t :: stripBlankFast r) with
    | false => rfl
    | true =>
      exfalso
      rcases rep2_append_sep htc hx with hL | hR
      · rw [hs] at hrep
        rw [rep2_split_left hrep] at hL
        exact Bool.noConfusion hL
      · rw [hs] at hrep
        rw [ih (rep2_tail (rep2_split_right hrep))] at hR
        exact Bool.noConfusion hR

theorem sbF_rep3_preserve {c : Char} (hc : isLineTerm c = false) :
    ∀ s, rep3 c s = false → rep3 c (stripBlankFast s) = false := by
  intro s
  induction s using lineInd with
  | h1 s hz ih =>
    intro hrep
    rw [← sbF_drop_match hz]
    apply ih
    cases hx : rep3 c (s.drop (reMatchBlank s)) with
    | false => rfl
    | true =>
      rw [rep3_drop _ hx] at hrep
      exact Bool.noConfusion hrep
  | h2 s hz h => intro hrep; rw [sbF_noTerm h]; exact hrep
  | h3 s t r hz h ih =>
    intro hrep
    rw [sbF_keep hz h]
    have hs := lineSplit h
    have ht := lineRest_head_term h
    have htc : ¬ t = c := by
      intro he; rw [he, hc] at ht; exact Bool.noConfusion ht
    cases hx : rep3 c (lineHead s ++ t :: stripBlankFast r) with
    | false => rfl
    | true =>
      exfalso
      rcases rep3_append_sep htc hx with hL | hR
      · rw [hs] at hrep
        rw [rep3_split_left hrep] at hL
        exact Bool.noConfusion hL
      · rw [hs] at hrep
        rw [ih (rep3_tail (rep3_split_right hrep))] at hR
        exact Bool.noConfusion hR

/-! ### The scanner `stripBlankAux` computes `stripBlankFast` -/

theorem sbA_nil (b : Bool) : stripBlankAux b [] = [] := by
  rw [stripBlankAux]

theorem sbA_cons (b : Bool) (c : Char) (cs : List Char) :
    stripBlankAux b (c :: cs) =
      if b && reMatchBlank (c :: cs) != 0 then
        stripBlankAux true ((c :: cs).drop (reMatchBlank (c :: cs)))
      else
        c :: stripBlankAux (isLineTerm c) cs := by
  rw [stripBlankAux]

theorem sbA_false_cons (c : Char) (cs : List Char) :
    stripBlankAux false (c :: cs) = c :: stripBlankAux (isLineTerm c) cs := by
  rw [sbA_cons]
  simp

theorem sbA_true_nomatch {c : Char} {cs : List Char} (h : reMatchBlank (c :: cs) = 0) :
    stripBlankAux true (c :: cs) = c :: stripBlankAux (isLineTerm c) cs := by
  rw [sbA_cons, h]
  simp

theorem sbA_true_match {c : Char} {cs : List Char} (h : ¬ reMatchBlank (c :: cs) = 0) :
    stripBlankAux true (c :: cs) =
      stripBlankAux true ((c :: cs).drop (reMatchBlank (c :: cs))) := by
  rw [sbA_cons]
  simp [h]

theorem sbA_copy : ∀ (L : List Char), (∀ c ∈ L, isLineTerm c = false) →
    ∀ rest, stripBlankAux false (L ++ rest) = L ++ stripBlankAux false rest := by
  intro L
  induction L with
  | nil => intro _ rest; simp
  | cons c L' ih =>
    intro hL rest
    have hc : isLineTerm c = false := hL c (by simp)
    rw [List.cons_append, sbA_false_cons, hc, ih (fun d hd => hL d (by simp [hd])),
      List.cons_append]

/-- The scanner embedding of the blank-line step agrees with its single-pass
kernel-computable form. -/
theorem stripBlank_eq : ∀ s : List Char, stripBlankAux true s = stripBlankFast s := by
  intro s
  induction s using lineInd with
  | h1 s hz ih =>
    cases hcase : s with
    | nil => rw [hcase] at hz; exact absurd rfl hz
    | cons c cs =>
      rw [← hcase]
      have hmatch : stripBlankAux true s =
          stripBlankAux true (s.drop (reMatchBlank s)) := by
        rw [hcase]
        exact sbA_true_match (by rw [← hcase]; exact hz)
      rw [hmatch, ih, sbF_drop_match hz]
  | h2 s hz h =>
    have hnt : ∀ c ∈ s, isLineTerm c = false := (lineRest_nil_iff s).mp h
    rw [sbF_noTerm h]
    cases s with
    | nil => rw [sbA_nil]
    | cons c cs =>
      have hz2 : reMatchBlank (c :: cs) = 0 := reMatchBlank_zero_noTerm hnt
      rw [sbA_true_nomatch hz2, hnt c (by simp)]
      have hcopy := sbA_copy cs (fun d hd => hnt d (by simp [hd])) []
      rw [List.append_nil, sbA_nil, List.append_nil] at hcopy
      rw [hcopy]
  | h3 s t r hz h ih =>
    have ht := lineRest_head_term h
    have hsplit := lineSplit h
    cases hL : lineHead s with
    | nil =>
      have hs2 : s = t :: r := by
        conv_lhs => rw [hsplit, hL]
        rfl
      rw [sbF_keep hz h, hL, List.nil_append]
      calc stripBlankAux true s = stripBlankAux true (t :: r) := by rw [← hs2]
        _ = t :: stripBlankAux (isLineTerm t) r := by
            apply sbA_true_nomatch
            rw [← hs2]
            exact hz
        _ = t :: stripBlankAux true r := by rw [ht]
        _ = t :: stripBlankFast r := by rw [ih]
    | cons c L2 =>
      have hcmem : ∀ d ∈ lineHead s, isLineTerm d = false :=
        fun d hd => lineHead_not_term hd
      have hcnt : isLineTerm c = false := hcmem c (by rw [hL]; simp)
      have hL2nt : ∀ d ∈ L2, isLineTerm d = false :=
        fun d hd => hcmem d (by rw [hL]; simp [hd])
      have hs2 : s = c :: (L2 ++ t :: r) := by
        conv_lhs => rw [hsplit, hL]
        rfl
      calc stripBlankAux true s
          = stripBlankAux true (c :: (L2 ++ t :: r)) := by rw [← hs2]
        _ = c :: stripBlankAux (isLineTerm c) (L2 ++ t :: r) := by
            apply sbA_true_nomatch
            rw [← hs2]
            exact hz
        _ = c :: (L2 ++ stripBlankAux false (t :: r)) := by
            rw [hcnt, sbA_copy L2 hL2nt]
        _ = c :: (L2 ++ (t :: stripBlankAux true r)) := by
            rw [sbA_false_cons, ht]
        _ = lineHead s ++ t :: stripBlankFast r := by
            rw [ih, hL]
            rfl
        _ = stripBlankFast s := (sbF_keep hz h).symm
/-! ### The statement-terminator steps and the final trim -/

theorem truncAtSemi_spec (s : List Char) :
    (truncAtSemi s = s ∧ s.count ';' = 0) ∨
    (∃ b r, s = b ++ ';' :: r ∧ b.count ';' = 0 ∧ truncAtSemi s = b ++ [';']) := by
  induction s using truncAtSemi.induct with
  | case1 => exact Or.inl ⟨rfl, rfl⟩
  | case2 cs => exact Or.inr ⟨[], cs, rfl, rfl, by simp [truncAtSemi]⟩
  | case3 c cs hc ih =>
    rcases ih with ⟨h1, h2⟩ | ⟨b, r, hb, hc0, ht⟩
    · refine Or.inl ⟨?_, ?_⟩
      · simp [truncAtSemi, hc, h1]
      · simp [List.count_cons, h2, beq_iff_eq, hc]
    · refine Or.inr ⟨c :: b, r, by simp [hb], ?_, ?_⟩
      · simp [List.count_cons, hc0, beq_iff_eq, hc]
      · simp [truncAtSemi, hc, ht]

theorem truncAtSemi_cons_ne {c : Char} {x : List Char} (hc : ¬ c = ';') :
    truncAtSemi (c :: x) = c :: truncAtSemi x := by
  simp [truncAtSemi, hc]

theorem ensureSemi_of_last {s : List Char} (h : s.getLast? = some ';') :
    ensureSemi s = s := by
  rw [ensureSemi, h]
  simp

theorem ensureSemi_of_last_ne {s : List Char} {d : Char} (h : s.getLast? = some d)
    (hd : ¬ d = ';') : ensureSemi s = s ++ [';'] := by
  rw [ensureSemi, h]
  simp [hd]

theorem jsTrim_id {c : Char} {s' : List Char}
    (hc : jsWs c = false) (hlast : (c :: s').getLast? = some ';') :
    jsTrim (c :: s') = c :: s' := by
  have h1 : List.dropWhile jsWs (c :: s') = c :: s' := by
    rw [List.dropWhile_cons, if_neg (by rw [hc]; exact Bool.false_ne_true)]
  have h2 : (c :: s').reverse.head? = some ';' := by
    rw [List.head?_reverse]; exact hlast
  rw [jsTrim, h1]
  cases hrev : (c :: s').reverse with
  | nil => rw [hrev] at h2; cases h2
  | cons x u =>
    have hx : x = ';' := by rw [hrev] at h2; injection h2
    have h3 : List.dropWhile jsWs (x :: u) = x :: u := by
      rw [List.dropWhile_cons, if_neg (by rw [hx, jsWs_semi]; exact Bool.false_ne_true)]
    rw [h3, ← hrev, List.reverse_reverse]

theorem startsSelectWs_cons7 (c1 c2 c3 c4 c5 c6 c7 : Char) (v : List Char) :
    startsSelectWs (c1 :: c2 :: c3 :: c4 :: c5 :: c6 :: c7 :: v) =
      ((c1 = 'S' || c1 = 's') && (c2 = 'E' || c2 = 'e') && (c3 = 'L' || c3 = 'l') &&
       (c4 = 'E' || c4 = 'e') && (c5 = 'C' || c5 = 'c') && (c6 = 'T' || c6 = 't') &&
       jsWs c7) := rfl

theorem startsSelectWs_elim {s : List Char} (h : startsSelectWs s = true) :
    ∃ c1 c2 c3 c4 c5 c6 c7 v, s = c1 :: c2 :: c3 :: c4 :: c5 :: c6 :: c7 :: v ∧
      (c1 = 'S' ∨ c1 = 's') ∧ (c2 = 'E' ∨ c2 = 'e') ∧ (c3 = 'L' ∨ c3 = 'l') ∧
      (c4 = 'E' ∨ c4 = 'e') ∧ (c5 = 'C' ∨ c5 = 'c') ∧ (c6 = 'T' ∨ c6 = 't') ∧
      jsWs c7 = true := by
  cases s with
  | nil => simp [startsSelectWs] at h
  | cons c1 s1 =>
  cases s1 with
  | nil => simp [startsSelectWs] at h
  | cons c2 s2 =>
  cases s2 with
  | nil => simp [startsSelectWs] at h
  | cons c3 s3 =>
  cases s3 with
  | nil => simp [startsSelectWs] at h
  | cons c4 s4 =>
  cases s4 with
  | nil => simp [startsSelectWs] at h
  | cons c5 s5 =>
  cases s5 with
  | nil => simp [startsSelectWs] at h
  | cons c6 s6 =>
  cases s6 with
  | nil => simp [startsSelectWs] at h
  | cons c7 v =>
    refine ⟨c1, c2, c3, c4, c5, c6, c7, v, rfl, ?_⟩
    rw [startsSelectWs_cons7] at h
    simp only [Bool.and_eq_true, Bool.or_eq_true, decide_eq_true_eq] at h
    obtain ⟨⟨⟨⟨⟨⟨h1, h2⟩, h3⟩, h4⟩, h5⟩, h6⟩, h7⟩ := h
    exact ⟨h1, h2, h3, h4, h5, h6, h7⟩

theorem prependSelect_starts (u : List Char) :
    startsSelectWs (prependSelect u) = true := by
  rw [prependSelect]
  by_cases h : startsSelectWs u = true
  · rw [if_pos h]; exact h
  · rw [if_neg h]
    show startsSelectWs ('S' :: 'E' :: 'L' :: 'E' :: 'C' :: 'T' :: ' ' :: u) = true
    rw [startsSelectWs_cons7]
    decide

theorem truncAtSemi_append {a : List Char} (ha : ∀ c ∈ a, ¬ c = ';') :
    ∀ x, truncAtSemi (a ++ x) = a ++ truncAtSemi x := by
  induction a with
  | nil => intro x; simp
  | cons c a' ih =>
    intro x
    rw [List.cons_append, truncAtSemi_cons_ne (ha c (by simp)),
      ih (fun d hd => ha d (by simp [hd])), List.cons_append]

/-- The tail of the Guardrail (steps 5-8) on any input: the `SELECT`-prefix
coercion followed by the two terminator steps and the trim always produces
`w ++ [';']` with `w` free of `;`, beginning with `SELECT` + whitespace
(case-insensitively), and already trimmed. -/
theorem pipeTail_spec (u : List Char) :
    ∃ w : List Char,
      ensureSemi (truncAtSemi (prependSelect u)) = w ++ [';'] ∧
      jsTrim (ensureSemi (truncAtSemi (prependSelect u))) = w ++ [';'] ∧
      w.count ';' = 0 ∧
      startsSelectWs (w ++ [';']) = true := by
  obtain ⟨c1, c2, c3, c4, c5, c6, c7, v, hp, h1, h2, h3, h4, h5, h6, h7⟩ :=
    startsSelectWs_elim (prependSelect_starts u)
  have hne1 : ¬ c1 = ';' := by rcases h1 with h | h <;> rw [h] <;> decide
  have hne2 : ¬ c2 = ';' := by rcases h2 with h | h <;> rw [h] <;> decide
  have hne3 : ¬ c3 = ';' := by rcases h3 with h | h <;> rw [h] <;> decide
  have hne4 : ¬ c4 = ';' := by rcases h4 with h | h <;> rw [h] <;> decide
  have hne5 : ¬ c5 = ';' := by rcases h5 with h | h <;> rw [h] <;> decide
  have hne6 : ¬ c6 = ';' := by rcases h6 with h | h <;> rw [h] <;> decide
  have hne7 : ¬ c7 = ';' := by
    intro he; rw [he, jsWs_semi] at h7; exact Bool.false_ne_true h7
  have hws1 : jsWs c1 = false := by rcases h1 with h | h <;> rw [h] <;> decide
  have hb1 : (decide (c1 = 'S') || decide (c1 = 's')) = true := by
    rcases h1 with h | h <;> simp [h]
  have hb2 : (decide (c2 = 'E') || decide (c2 = 'e')) = true := by
    rcases h2 with h | h <;> simp [h]
  have hb3 : (decide (c3 = 'L') || decide (c3 = 'l')) = true := by
    rcases h3 with h | h <;> simp [h]
  have hb4 : (decide (c4 = 'E') || decide (c4 = 'e')) = true := by
    rcases h4 with h | h <;> simp [h]
  have hb5 : (decide (c5 = 'C') || decide (c5 = 'c')) = true := by
    rcases h5 with h | h <;> simp [h]
  have hb6 : (decide (c6 = 'T') || decide (c6 = 't')) = true := by
    rcases h6 with h | h <;> simp [h]
  have hstart : ∀ y, startsSelectWs (c1 :: c2 :: c3 :: c4 :: c5 :: c6 :: c7 :: y) = true := by
    intro y
    rw [startsSelectWs_cons7, hb1, hb2, hb3, hb4, hb5, hb6, h7]
    rfl
  have hfront : ∀ x, truncAtSemi (c1 :: c2 :: c3 :: c4 :: c5 :: c6 :: c7 :: x) =
      c1 :: c2 :: c3 :: c4 :: c5 :: c6 :: c7 :: truncAtSemi x := by
    intro x
    rw [truncAtSemi_cons_ne hne1, truncAtSemi_cons_ne hne2, truncAtSemi_cons_ne hne3,
      truncAtSemi_cons_ne hne4, truncAtSemi_cons_ne hne5, truncAtSemi_cons_ne hne6,
      truncAtSemi_cons_ne hne7]
  rw [hp, hfront]
  rcases truncAtSemi_spec v with ⟨hTv, hCv⟩ | ⟨b, r, hbv, hb0, hTv⟩
  · rw [hTv]
    have hcount : (c1 :: c2 :: c3 :: c4 :: c5 :: c6 :: c7 :: v).count ';' = 0 := by
      simp [List.count_cons, beq_iff_eq, hne1, hne2, hne3, hne4, hne5, hne6, hne7, hCv]
    obtain ⟨y, d, hyd⟩ :
        ∃ y d, (c1 :: c2 :: c3 :: c4 :: c5 :: c6 :: c7 :: v) = y ++ [d] := by
      rcases List.eq_nil_or_concat (c1 :: c2 :: c3 :: c4 :: c5 :: c6 :: c7 :: v) with
        h0 | ⟨y, d, hyd⟩
      · cases h0
      · exact ⟨y, d, by rw [hyd, List.concat_eq_append]⟩
    have hlast : (c1 :: c2 :: c3 :: c4 :: c5 :: c6 :: c7 :: v).getLast? = some d := by
      rw [hyd, List.getLast?_concat]
    have hdne : ¬ d = ';' := by
      intro he
      rw [hyd, he, List.count_append] at hcount
      simp [List.count_cons] at hcount
    have hens : ensureSemi (c1 :: c2 :: c3 :: c4 :: c5 :: c6 :: c7 :: v) =
        (c1 :: c2 :: c3 :: c4 :: c5 :: c6 :: c7 :: v) ++ [';'] :=
      ensureSemi_of_last_ne hlast hdne
    refine ⟨c1 :: c2 :: c3 :: c4 :: c5 :: c6 :: c7 :: v, hens, ?_, hcount, ?_⟩
    · rw [hens]
      have hshape : (c1 :: c2 :: c3 :: c4 :: c5 :: c6 :: c7 :: v) ++ [';'] =
          c1 :: ((c2 :: c3 :: c4 :: c5 :: c6 :: c7 :: v) ++ [';']) := by simp
      rw [hshape]
      apply jsTrim_id hws1
      rw [← hshape, List.getLast?_concat]
    · have hshape : (c1 :: c2 :: c3 :: c4 :: c5 :: c6 :: c7 :: v) ++ [';'] =
          c1 :: c2 :: c3 :: c4 :: c5 :: c6 :: c7 :: (v ++ [';']) := by simp
      rw [hshape]
      exact hstart _
  · rw [hTv]
    have hceq : (c1 :: c2 :: c3 :: c4 :: c5 :: c6 :: c7 :: (b ++ [';'])) =
        (c1 :: c2 :: c3 :: c4 :: c5 :: c6 :: c7 :: b) ++ [';'] := by simp
    have hens : ensureSemi (c1 :: c2 :: c3 :: c4 :: c5 :: c6 :: c7 :: (b ++ [';'])) =
        c1 :: c2 :: c3 :: c4 :: c5 :: c6 :: c7 :: (b ++ [';']) := by
      apply ensureSemi_of_last
      rw [hceq, List.getLast?_concat]
    refine ⟨c1 :: c2 :: c3 :: c4 :: c5 :: c6 :: c7 :: b, by rw [hens, hceq], ?_, ?_, ?_⟩
    · rw [hens, hceq]
      have hshape : (c1 :: c2 :: c3 :: c4 :: c5 :: c6 :: c7 :: b) ++ [';'] =
          c1 :: ((c2 :: c3 :: c4 :: c5 :: c6 :: c7 :: b) ++ [';']) := by simp
      rw [hshape]
      apply jsTrim_id hws1
      rw [← hshape, List.getLast?_concat]
    · simp [List.count_cons, beq_iff_eq, hne1, hne2, hne3, hne4, hne5, hne6, hne7, hb0]
    · have hshape : (c1 :: c2 :: c3 :: c4 :: c5 :: c6 :: c7 :: b) ++ [';'] =
          c1 :: c2 :: c3 :: c4 :: c5 :: c6 :: c7 :: (b ++ [';']) := by simp
      rw [hshape]
      exact hstart _

/-! ### Marker-freedom and blank-line fixed points through the tail steps -/

theorem ensureSemi_shape (X : List Char) :
    ensureSemi X = X ∨ ensureSemi X = X ++ [';'] := by
  rw [ensureSemi]
  cases hgl : X.getLast? with
  | none => exact Or.inl rfl
  | some c =>
    by_cases hc : c = ';'
    · exact Or.inl (by simp [hc])
    · exact Or.inr (by simp [hc])

theorem rep2_snoc {c d : Char} {X : List Char} (hd : ¬ d = c)
    (h : rep2 c X = false) : rep2 c (X ++ [d]) = false := by
  cases hx : rep2 c (X ++ [d]) with
  | false => rfl
  | true =>
    exfalso
    rcases rep2_append_sep hd (by simpa using hx) with hL | hR
    · rw [h] at hL; exact Bool.false_ne_true hL
    · simp [rep2] at hR

theorem rep3_snoc {c d : Char} {X : List Char} (hd : ¬ d = c)
    (h : rep3 c X = false) : rep3 c (X ++ [d]) = false := by
  cases hx : rep3 c (X ++ [d]) with
  | false => rfl
  | true =>
    exfalso
    rcases rep3_append_sep hd (by simpa using hx) with hL | hR
    · rw [h] at hL; exact Bool.false_ne_true hL
    · simp [rep3] at hR

theorem rep2_truncAtSemi {c : Char} (hc : ¬ (';' : Char) = c) {X : List Char}
    (h : rep2 c X = false) : rep2 c (truncAtSemi X) = false := by
  rcases truncAtSemi_spec X with ⟨heq, _⟩ | ⟨b, r, hbv, _, heq⟩
  · rw [heq]; exact h
  · rw [heq]
    apply rep2_snoc hc
    rw [hbv] at h
    exact rep2_split_left h

theorem rep3_truncAtSemi {c : Char} (hc : ¬ (';' : Char) = c) {X : List Char}
    (h : rep3 c X = false) : rep3 c (truncAtSemi X) = false := by
  rcases truncAtSemi_spec X with ⟨heq, _⟩ | ⟨b, r, hbv, _, heq⟩
  · rw [heq]; exact h
  · rw [heq]
    apply rep3_snoc hc
    rw [hbv] at h
    exact rep3_split_left h

theorem rep2_ensureSemi {c : Char} (hc : ¬ (';' : Char) = c) {X : List Char}
    (h : rep2 c X = false) : rep2 c (ensureSemi X) = false := by
  rcases ensureSemi_shape X with heq | heq
  · rw [heq]; exact h
  · rw [heq]; exact rep2_snoc hc h

theorem rep3_ensureSemi {c : Char} (hc : ¬ (';' : Char) = c) {X : List Char}
    (h : rep3 c X = false) : rep3 c (ensureSemi X) = false := by
  rcases ensureSemi_shape X with heq | heq
  · rw [heq]; exact h
  · rw [heq]; exact rep3_snoc hc h

theorem rep2_prependSelect {c : Char} (hsel : rep2 c "SELECT".data = false)
    (hsp : ¬ (' ' : Char) = c) {X : List Char}
    (h : rep2 c X = false) : rep2 c (prependSelect X) = false := by
  rw [prependSelect]
  by_cases hs : startsSelectWs X = true
  · rw [if_pos hs]; exact h
  · rw [if_neg hs]
    cases hx : rep2 c ("SELECT ".data ++ X) with
    | false => rfl
    | true =>
      exfalso
      have hsplit : ("SELECT ".data ++ X) = "SELECT".data ++ ' ' :: X := rfl
      rw [hsplit] at hx
      rcases rep2_append_sep hsp hx with hL | hR
      · rw [hsel] at hL; exact Bool.false_ne_true hL
      · rw [h] at hR; exact Bool.false_ne_true hR

theorem rep3_prependSelect {c : Char} (hsel : rep3 c "SELECT".data = false)
    (hsp : ¬ (' ' : Char) = c) {X : List Char}
    (h : rep3 c X = false) : rep3 c (prependSelect X) = false := by
  rw [prependSelect]
  by_cases hs : startsSelectWs X = true
  · rw [if_pos hs]; exact h
  · rw [if_neg hs]
    cases hx : rep3 c ("SELECT ".data ++ X) with
    | false => rfl
    | true =>
      exfalso
      have hsplit : ("SELECT ".data ++ X) = "SELECT".data ++ ' ' :: X := rfl
      rw [hsplit] at hx
      rcases rep3_append_sep hsp hx with hL | hR
      · rw [hsel] at hL; exact Bool.false_ne_true hL
      · rw [h] at hR; exact Bool.false_ne_true hR

theorem sbFfix_prependSelect {X : List Char} (h : stripBlankFast X = X) :
    stripBlankFast (prependSelect X) = prependSelect X := by
  rw [prependSelect]
  by_cases hs : startsSelectWs X = true
  · rw [if_pos hs]; exact h
  · rw [if_neg hs]
    have hdata : ("SELECT ".data : List Char) = 'S' :: "ELECT ".data := by decide
    rw [hdata]
    apply sbF_fix_front h
    · intro c hc
      have hall : ∀ c ∈ ('S' :: "ELECT ".data), isLineTerm c = false := by decide
      exact hall c hc
    · decide

theorem sbFfix_trunc {X : List Char} (h : stripBlankFast X = X) :
    stripBlankFast (truncAtSemi X) = truncAtSemi X := by
  rcases truncAtSemi_spec X with ⟨heq, _⟩ | ⟨b, r, hbv, _, heq⟩
  · rw [heq]; exact h
  · rw [heq]
    apply sbF_fix_pre (b ++ [';']) r
    have hx : (b ++ [';']) ++ r = X := by rw [hbv]; simp
    rw [hx]
    exact h

theorem sbFfix_ensure {X : List Char} (h : stripBlankFast X = X) :
    stripBlankFast (ensureSemi X) = ensureSemi X := by
  rcases ensureSemi_shape X with heq | heq
  · rw [heq]; exact h
  · rw [heq]
    exact sbF_fix_app h (by decide)

/-! ### The full characterisation of a sanitized statement -/

/-- Everything sanitization guarantees about its output `w ++ [';']`:
a single trailing `;`, a (case-insensitive) `SELECT` + whitespace prefix, no
code-fence run, no `--` marker, and fixed-point-ness of the blank-line
removal. -/
theorem sanitizeList_spec (s : List Char) :
    ∃ w : List Char,
      sanitizeList s = w ++ [';'] ∧
      w.count ';' = 0 ∧
      startsSelectWs (w ++ [';']) = true ∧
      rep3 btk (w ++ [';']) = false ∧
      rep2 '-' (w ++ [';']) = false ∧
      stripBlankFast (w ++ [';']) = w ++ [';'] := by
  have hsan : sanitizeList s = jsTrim (ensureSemi (truncAtSemi (prependSelect
      (stripBlankFast (stripComments (stripFence (stripSqlFence s))))))) := by
    rw [sanitizeList, stripBlank_eq]
  obtain ⟨w, hens, htrim, hcount, hstart⟩ :=
    pipeTail_spec (stripBlankFast (stripComments (stripFence (stripSqlFence s))))
  have hrep3_u3 : rep3 btk (stripComments (stripFence (stripSqlFence s))) = false :=
    scAux_rep3_preserve false _ (stripFence_not_rep3 (stripSqlFence s))
  have hrep2_u3 : rep2 '-' (stripComments (stripFence (stripSqlFence s))) = false :=
    scAux_not_rep2 false _
  have hrep3_u4 := sbF_rep3_preserve isLineTerm_btk _ hrep3_u3
  have hrep2_u4 := sbF_rep2_preserve isLineTerm_dash _ hrep2_u3
  have hrep3_t : rep3 btk (w ++ [';']) = false := by
    rw [← hens]
    exact rep3_ensureSemi (by decide) (rep3_truncAtSemi (by decide)
      (rep3_prependSelect (by decide) (by decide) hrep3_u4))
  have hrep2_t : rep2 '-' (w ++ [';']) = false := by
    rw [← hens]
    exact rep2_ensureSemi (by decide) (rep2_truncAtSemi (by decide)
      (rep2_prependSelect (by decide) (by decide) hrep2_u4))
  have hfix_u4 : stripBlankFast (stripBlankFast (stripComments (stripFence
      (stripSqlFence s)))) = stripBlankFast (stripComments (stripFence (stripSqlFence s))) :=
    sbF_idem _
  have hfix_t : stripBlankFast (w ++ [';']) = w ++ [';'] := by
    rw [← hens]
    exact sbFfix_ensure (sbFfix_trunc (sbFfix_prependSelect hfix_u4))
  exact ⟨w, by rw [hsan, htrim], hcount, hstart, hrep3_t, hrep2_t, hfix_t⟩

/-- Sanitization is idempotent at the character-list level. -/
theorem sanitizeList_idem (s : List Char) :
    sanitizeList (sanitizeList s) = sanitizeList s := by
  obtain ⟨w, ht, hcount, hstart, hrep3, hrep2, hfix⟩ := sanitizeList_spec s
  rw [ht, sanitizeList]
  rw [stripSqlFence_id _ hrep3, stripFence_id _ hrep3]
  rw [show stripComments (w ++ [';']) = w ++ [';'] from scAux_id _ hrep2]
  rw [stripBlank_eq, hfix]
  rw [show prependSelect (w ++ [';']) = w ++ [';'] from by rw [prependSelect, if_pos hstart]]
  have hw : ∀ c ∈ w, ¬ c = ';' := by
    intro c hc heq
    exact (List.count_eq_zero.mp hcount) (heq ▸ hc)
  rw [show truncAtSemi (w ++ [';']) = w ++ [';'] from by
    rw [truncAtSemi_append hw]; rfl]
  rw [ensureSemi_of_last (by rw [List.getLast?_concat])]
  obtain ⟨c1, c2, c3, c4, c5, c6, c7, v, hp, h1, _⟩ := startsSelectWs_elim hstart
  have hws1 : jsWs c1 = false := by rcases h1 with h | h <;> rw [h] <;> decide
  rw [hp]
  apply jsTrim_id hws1
  rw [← hp, List.getLast?_concat]

/-- `sanitizeList` with the blank-line scanner replaced by its single-pass
(kernel-computable) form. -/
theorem sanitizeList_eq_fast (s : List Char) : sanitizeList s = sanitizeListFast s := by
  rw [sanitizeList, sanitizeListFast, stripBlank_eq]

/-- Evaluation form of the Guardrail on strings. -/
theorem sanitizeSqlQuery_eval (q : String) :
    sanitizeSqlQuery q = String.mk (sanitizeListFast q.data) := by
  rw [sanitizeSqlQuery, sanitizeList_eq_fast]

/-! ### Supporting facts for the claims -/

theorem beginsSelectCI_of_starts {s : List Char} (h : startsSelectWs s = true) :
    beginsSelectCI s = true := by
  obtain ⟨c1, c2, c3, c4, c5, c6, c7, v, hp, h1, h2, h3, h4, h5, h6, _⟩ :=
    startsSelectWs_elim h
  have hb1 : (decide (c1 = 'S') || decide (c1 = 's')) = true := by
    rcases h1 with h' | h' <;> simp [h']
  have hb2 : (decide (c2 = 'E') || decide (c2 = 'e')) = true := by
    rcases h2 with h' | h' <;> simp [h']
  have hb3 : (decide (c3 = 'L') || decide (c3 = 'l')) = true := by
    rcases h3 with h' | h' <;> simp [h']
  have hb4 : (decide (c4 = 'E') || decide (c4 = 'e')) = true := by
    rcases h4 with h' | h' <;> simp [h']
  have hb5 : (decide (c5 = 'C') || decide (c5 = 'c')) = true := by
    rcases h5 with h' | h' <;> simp [h']
  have hb6 : (decide (c6 = 'T') || decide (c6 = 't')) = true := by
    rcases h6 with h' | h' <;> simp [h']
  rw [hp]
  show ((decide (c1 = 'S') || decide (c1 = 's')) && (decide (c2 = 'E') || decide (c2 = 'e')) &&
    (decide (c3 = 'L') || decide (c3 = 'l')) && (decide (c4 = 'E') || decide (c4 = 'e')) &&
    (decide (c5 = 'C') || decide (c5 = 'c')) && (decide (c6 = 'T') || decide (c6 = 't'))) = true
  rw [hb1, hb2, hb3, hb4, hb5, hb6]
  rfl

theorem prependSelect_fix_iff (u : List Char) :
    prependSelect u = u ↔ startsSelectWs u = true := by
  constructor
  · intro h
    by_contra hs
    rw [prependSelect, if_neg hs] at h
    have := congrArg List.length h
    simp at this
    omega
  · intro h
    rw [prependSelect, if_pos h]

/-! ### The claims -/

/-- C1 (counterexample): sanitizing `DELETE FROM t;` does **not** return it
unchanged — step 4's lookahead only checks for a `SELECT` prefix, so the
non-`SELECT` write verb triggers the coercion rather than passing through. -/
theorem C1_counterexample : sanitizeSqlQuery "DELETE FROM t;" ≠ "DELETE FROM t;" := by
  rw [sanitizeSqlQuery_eval]
  decide

/-- C1 (amended): for the candidate `DELETE FROM t;`, step 4 of the Guardrail
prepends `SELECT ` (the text does not begin with `SELECT` + whitespace), so
sanitization yields `SELECT DELETE FROM t;`; the `DELETE` text itself is
preserved, not rejected. -/
theorem C1_amended : sanitizeSqlQuery "DELETE FROM t;" = "SELECT DELETE FROM t;" := by
  rw [sanitizeSqlQuery_eval]
  rfl

/-- C2: the completion request built by `generateSqlQuery` does not depend on
the row cap it is given: for any two values of `maxRows` the request (model,
system instruction, messages, temperature) is identical, so the system
instruction cannot direct the model to use `LIMIT` at the supplied cap.  This
contradicts the claim and the `maxRows` input parameter's own description
("Maximum number of rows to return"): the parameter is accepted, parsed and
passed to `generateSqlQuery`, but never used. -/
theorem C2_rowcap_unused : ∀ (schemaInfo question : String) (m1 m2 : Nat),
    generateSqlRequest schemaInfo question m1 = generateSqlRequest schemaInfo question m2 :=
  fun _ _ _ _ => rfl

/-- C3 (counterexample): the input `SELECT* FROM t` begins (already trimmed)
with `SELECT`, yet `SELECT ` is still prepended, because the lookahead
`(?!SELECT\s)` also requires a whitespace character after `SELECT`. -/
theorem C3_counterexample : sanitizeSqlQuery "SELECT* FROM t" = "SELECT SELECT* FROM t;" ∧
    sanitizeSqlQuery "SELECT* FROM t" ≠ "SELECT* FROM t;" := by
  constructor
  · rw [sanitizeSqlQuery_eval]; rfl
  · rw [sanitizeSqlQuery_eval]; decide

/-- C3 (amended): in Guardrail step 4, `SELECT ` is prepended exactly when the
text entering that step does not begin with `SELECT` (case-insensitive)
immediately followed by a whitespace character; no trimming happens before the
check (the text entering step 4 is the fence/comment/blank-line-stripped
text).  The coercion example holds: `name, age FROM users` sanitizes to
`SELECT name, age FROM users;`. -/
theorem C3_amended :
    (∀ s : String, sanitizeSqlQuery s = String.mk (jsTrim (ensureSemi (truncAtSemi
      (prependSelect (stripBlankFast (stripComments (stripFence (stripSqlFence s.data))))))))) ∧
    (∀ u : List Char, prependSelect u = u ↔ startsSelectWs u = true) ∧
    sanitizeSqlQuery "name, age FROM users" = "SELECT name, age FROM users;" := by
  refine ⟨?_, prependSelect_fix_iff, ?_⟩
  · intro s
    rw [sanitizeSqlQuery_eval]
    rfl
  · rw [sanitizeSqlQuery_eval]
    rfl

/-- C4 (counterexample): the fenced input ` ```sql\nSELECT 1\n``` ` does not
sanitize to `SELECT 1;` — the newline left before the closing fence survives,
because the terminator `;` is appended *after* it and the final `trim()` can
then no longer reach it. -/
theorem C4_counterexample : sanitizeSqlQuery fenceInput ≠ "SELECT 1;" := by
  rw [sanitizeSqlQuery_eval]
  decide

/-- C4 (amended): the fenced input ` ```sql\nSELECT 1\n``` ` sanitizes to
`SELECT 1\n;` (the interior newline before the appended `;` remains). -/
theorem C4_amended : sanitizeSqlQuery fenceInput = "SELECT 1\n;" := by
  rw [sanitizeSqlQuery_eval]
  rfl

/-- C5: the Guardrail is idempotent — sanitizing twice equals sanitizing
once, for every input string. -/
theorem C5_idempotent : ∀ s : String,
    sanitizeSqlQuery (sanitizeSqlQuery s) = sanitizeSqlQuery s := by
  intro s
  exact congrArg String.mk (sanitizeList_idem s.data)

/-- C6: for every input, the sanitized statement contains exactly one `;`,
and it is the final character. -/
theorem C6_single_statement : ∀ s : String,
    (sanitizeSqlQuery s).data.count ';' = 1 ∧
    (sanitizeSqlQuery s).data.getLast? = some ';' := by
  intro s
  obtain ⟨w, ht, hcount, _, _, _, _⟩ := sanitizeList_spec s.data
  have hdata : (sanitizeSqlQuery s).data = sanitizeList s.data := rfl
  constructor
  · rw [hdata, ht, List.count_append, hcount]
    decide
  · rw [hdata, ht, List.getLast?_concat]

/-- C7: for every input, the sanitized statement begins with `SELECT`
(case-insensitively), whether the input already began with it or the coercion
step prepended it. -/
theorem C7_select_only : ∀ s : String, beginsSelectCI (sanitizeSqlQuery s).data = true := by
  intro s
  obtain ⟨w, ht, _, hstart, _, _, _⟩ := sanitizeList_spec s.data
  have hdata : (sanitizeSqlQuery s).data = sanitizeList s.data := rfl
  rw [hdata, ht]
  exact beginsSelectCI_of_starts hstart

/-- C8 (counterexample): on a generation failure the database **is**
contacted: the handler opens the connection before calling the model, so the
trace of a failing run still contains the connect event (and the matching
disconnect from the `finally`), refuting "no database connection activity
occurs"; the reported error is the generation failure. -/
theorem C8_counterexample :
    (handlerRun none (Except.ok "[]") none).1 = [DbEvent.connect, DbEvent.disconnect] ∧
    DbEvent.connect ∈ (handlerRun none (Except.ok "[]") none).1 ∧
    (handlerRun none (Except.ok "[]") none).2 =
      Except.error "Failed to generate SQL query: No response from OpenAI" := by
  refine ⟨rfl, ?_, rfl⟩
  decide

/-- C8 (amended): when the model response carries no usable text, the handler
reports the generation failure and never executes a query — the trace contains
no query event; the connection, however, is opened before synthesis and closed
on the failure path, so it is exactly `[connect, disconnect]`. -/
theorem C8_amended : ∀ (llm : Option String) (db : Except String String) (ins : Option String),
    genSqlText llm = Except.error "Failed to generate SQL query: No response from OpenAI" →
    (handlerRun llm db ins).1 = [DbEvent.connect, DbEvent.disconnect] ∧
    (∀ q, DbEvent.query q ∉ (handlerRun llm db ins).1) ∧
    (handlerRun llm db ins).2 =
      Except.error "Failed to generate SQL query: No response from OpenAI" := by
  intro llm db ins h
  rw [handlerRun, h]
  refine ⟨rfl, ?_, rfl⟩
  intro q
  simp

/-- C8 (witness): the amended statement holds concretely for an absent model
response. -/
theorem C8_witness :
    genSqlText none = Except.error "Failed to generate SQL query: No response from OpenAI" ∧
    ((handlerRun none (Except.ok "") none).1 = [DbEvent.connect, DbEvent.disconnect] ∧
     (∀ q, DbEvent.query q ∉ (handlerRun none (Except.ok "") none).1) ∧
     (handlerRun none (Except.ok "") none).2 =
       Except.error "Failed to generate SQL query: No response from OpenAI") :=
  ⟨rfl, C8_amended none (Except.ok "") none rfl⟩

/-- C9: comment stripping is purely textual and fires inside quoted string
literals: the single valid statement `SELECT "a--b" AS x` loses everything
from the `--` inside the literal to the end of the line, so the sanitized
statement differs from the input statement inside the literal. -/
theorem C9_comment_in_literal :
    sanitizeSqlQuery "SELECT \"a--b\" AS x" = "SELECT \"a;" ∧
    sanitizeSqlQuery "SELECT \"a--b\" AS x" ≠ "SELECT \"a--b\" AS x;" := by
  constructor
  · rw [sanitizeSqlQuery_eval]; rfl
  · rw [sanitizeSqlQuery_eval]; decide

/-- C10: the literal string `[]` is the internal no-schema sentinel at the
public interface: a request whose schema field equals `"[]"` builds, for any
question and row cap (the credential does not enter the request), exactly the
same completion request as one whose schema field is absent — the schema text
`[]` is never interpolated into the system instruction. -/
theorem C10_schema_sentinel : ∀ (question : String) (maxRows : Nat),
    handlerRequest (some "[]") question maxRows = handlerRequest none question maxRows :=
  fun _ _ => rfl
